import Mathlib

/-!
Verification of the c3e dense linear-algebra core (matrix.c, matrix_tuple.c,
vector.c) against its specification.  The C sources are shallowly embedded:
the floating-point element type `c3e_number` is modelled by the exact
rationals ℚ, a matrix is its dimensions together with the flat row-major
store (a total function from flat indices, zero where the C buffer is
zero-initialised), and every loop is an explicit fold over its index range.
All definitions are executable, so concrete runs are settled by kernel
evaluation.
-/

/-- Sequential counted loop: `foldRange n f s` runs `f` on states for
indices `0, 1, ..., n-1` in that order, the embedding of the C pattern
`for(i = 0; i < n; i++)`. -/
def foldRange {σ : Type _} : Nat → (Nat → σ → σ) → σ → σ
  | 0, _, s => s
  | n + 1, f, s => f n (foldRange n f s)

/-- Accumulating `+=` loop: the sum of `f 0, ..., f (n-1)`. -/
def sumRange (n : Nat) (f : Nat → ℚ) : ℚ :=
  foldRange n (fun k acc => acc + f k) 0

/-- Conjunction loop over `0, ..., n-1` (a scan that fails on the first
violated condition returns the same boolean as the full conjunction). -/
def allRange (n : Nat) (f : Nat → Bool) : Bool :=
  foldRange n (fun k acc => acc && f k) true

/-- Single store into a flat buffer. -/
def upd (d : Nat → ℚ) (k : Nat) (v : ℚ) : Nat → ℚ :=
  fun n => if n = k then v else d n

theorem foldRange_succ {σ : Type _} (n : Nat) (f : Nat → σ → σ) (s : σ) :
    foldRange (n + 1) f s = f n (foldRange n f s) := rfl

/-- An invariant preserved by every step of a counted loop holds of the
final state. -/
theorem foldRange_inv {σ : Type _} (P : σ → Prop) (n : Nat) (f : Nat → σ → σ)
    (s : σ) (h0 : P s) (hstep : ∀ i, i < n → ∀ t, P t → P (f i t)) :
    P (foldRange n f s) := by
  induction n with
  | zero => exact h0
  | succ m ih =>
      exact hstep m (Nat.lt_succ_self m) _
        (ih (fun i hi t ht => hstep i (Nat.lt_succ_of_lt hi) t ht))

theorem sumRange_succ (n : Nat) (f : Nat → ℚ) :
    sumRange (n + 1) f = sumRange n f + f n := rfl

theorem sumRange_eq_finset_sum (n : Nat) (f : Nat → ℚ) :
    sumRange n f = ∑ k ∈ Finset.range n, f k := by
  induction n with
  | zero => rfl
  | succ m ih => rw [sumRange_succ, ih, Finset.sum_range_succ]

theorem sumRange_congr (n : Nat) (f g : Nat → ℚ)
    (h : ∀ k, k < n → f k = g k) : sumRange n f = sumRange n g := by
  induction n with
  | zero => rfl
  | succ m ih =>
      rw [sumRange_succ, sumRange_succ, ih (fun k hk => h k (Nat.lt_succ_of_lt hk)),
        h m (Nat.lt_succ_self m)]

theorem sumRange_zero_of (n : Nat) (f : Nat → ℚ)
    (h : ∀ k, k < n → f k = 0) : sumRange n f = 0 := by
  induction n with
  | zero => rfl
  | succ m ih =>
      rw [sumRange_succ, ih (fun k hk => h k (Nat.lt_succ_of_lt hk)),
        h m (Nat.lt_succ_self m), add_zero]

theorem allRange_true_iff (n : Nat) (f : Nat → Bool) :
    allRange n f = true ↔ ∀ k, k < n → f k = true := by
  induction n with
  | zero => simp [allRange, foldRange]
  | succ m ih =>
      unfold allRange at ih ⊢
      rw [foldRange_succ, Bool.and_eq_true, ih]
      constructor
      · rintro ⟨hall, hm⟩ k hk
        rcases Nat.lt_succ_iff_lt_or_eq.mp hk with h | h
        · exact hall k h
        · exact h ▸ hm
      · intro h
        exact ⟨fun k hk => h k (Nat.lt_succ_of_lt hk), h m (Nat.lt_succ_self m)⟩

theorem upd_same (d : Nat → ℚ) (k : Nat) (v : ℚ) : upd d k v k = v := by
  simp [upd]

theorem upd_other (d : Nat → ℚ) (k n : Nat) (v : ℚ) (h : n ≠ k) :
    upd d k v n = d n := by
  simp [upd, h]

/-- Flat index of the row-major element `(i, j)` stays inside the buffer. -/
theorem flat_idx_lt {i j r c : Nat} (hi : i < r) (hj : j < c) :
    i * c + j < r * c :=
  calc i * c + j < i * c + c := Nat.add_lt_add_left hj _
    _ = (i + 1) * c := (Nat.succ_mul i c).symm
    _ ≤ r * c := Nat.mul_le_mul_right c hi

theorem flat_idx_div {i j c : Nat} (hj : j < c) : (i * c + j) / c = i := by
  have hc : 0 < c := Nat.lt_of_le_of_lt (Nat.zero_le j) hj
  rw [Nat.mul_comm i c, Nat.mul_add_div hc, Nat.div_eq_of_lt hj, Nat.add_zero]

theorem flat_idx_mod {i j c : Nat} (hj : j < c) : (i * c + j) % c = j := by
  rw [Nat.mul_comm i c, Nat.mul_add_mod, Nat.mod_eq_of_lt hj]

/-- A row-major index lies in the row region of row `r` exactly when its row
part is `r`. -/
theorem row_region_iff {i j r c : Nat} (hj : j < c) :
    (r * c ≤ i * c + j ∧ i * c + j < r * c + c) ↔ i = r := by
  constructor
  · rintro ⟨h1, h2⟩
    rcases Nat.lt_trichotomy i r with h | h | h
    · exfalso
      have : i * c + j < r * c :=
        Nat.lt_of_lt_of_le
          (Nat.lt_of_lt_of_le (Nat.add_lt_add_left hj _)
            (Nat.le_of_eq (Nat.succ_mul i c).symm))
          (Nat.mul_le_mul_right c h)
      exact Nat.lt_irrefl _ (Nat.lt_of_le_of_lt h1 this)
    · exact h
    · exfalso
      have : r * c + c ≤ i * c + j := by
        calc r * c + c = (r + 1) * c := (Nat.succ_mul r c).symm
          _ ≤ i * c := Nat.mul_le_mul_right c h
          _ ≤ i * c + j := Nat.le_add_right _ _
      exact Nat.lt_irrefl _ (Nat.lt_of_lt_of_le h2 this)
  · rintro rfl
    exact ⟨Nat.le_add_right _ _, Nat.add_lt_add_left hj _⟩

/-- The data model of `c3e_matrix` (commons.h): dimensions and a flat
row-major buffer.  Flat positions the C code never wrote hold the value
`calloc` put there, namely zero; the total function keeps every position
addressable exactly as the C flat pointer does. -/
structure c3e_matrix where
  rows : Nat
  cols : Nat
  data : Nat → ℚ

/-- The data model of `c3e_vector` (commons.h). -/
structure c3e_vector where
  size : Nat
  data : Nat → ℚ

/-- The pair type `c3e_matrix_tuple` (matrix_tuple.h): `a` and `b` hold
`(Q, R)` or `(L, U)`. -/
structure c3e_matrix_tuple where
  a : c3e_matrix
  b : c3e_matrix

/-- The element accessor macro: `(matrix)->data[(row) * (matrix)->cols + (col)]`.
No bounds check, exactly as in matrix.h. -/
def MATRIX_ELEM (m : c3e_matrix) (row col : Nat) : ℚ :=
  m.data (row * m.cols + col)

/-- `c3e_matrix_get_at`: returns `MATRIX_ELEM_AT(matrix, row, col)` with no
bounds check. -/
def c3e_matrix_get_at (m : c3e_matrix) (row col : Nat) : ℚ :=
  MATRIX_ELEM m row col

/-- `c3e_matrix_zeros` (and `c3e_matrix_init`, whose `calloc` zero-fills the
buffer): a `rows × cols` matrix of zeros. -/
def c3e_matrix_zeros (rows cols : Nat) : c3e_matrix :=
  ⟨rows, cols, fun _ => 0⟩

/-- `c3e_matrix_copy`: fresh `rows × cols` zero buffer, then
`c3e_matrix_set_elements` copies the `rows * cols` leading values of the
source buffer. -/
def c3e_matrix_copy (m : c3e_matrix) : c3e_matrix :=
  ⟨m.rows, m.cols, fun k => if k < m.rows * m.cols then m.data k else 0⟩

/-- `c3e_matrix_identity`: zero square matrix, then the loop stores `1.0` at
each diagonal flat position `i * side + i`. -/
def c3e_matrix_identity (side : Nat) : c3e_matrix :=
  ⟨side, side, foldRange side (fun i d => upd d (i * side + i) 1) (fun _ => 0)⟩

/-- `c3e_matrix_transpose`: allocates `cols × rows` and stores the source
element `(i, j)` at target `(j, i)`; the loop writes every target flat
position `j * rows + i` exactly once, so the target buffer is given
pointwise (zero outside the written range, as allocated). -/
def c3e_matrix_transpose (m : c3e_matrix) : c3e_matrix :=
  ⟨m.cols, m.rows, fun k =>
    if k < m.cols * m.rows then m.data ((k % m.rows) * m.cols + k / m.rows) else 0⟩

/-- Tolerance `1e-10` used by the pivot search and the QR-iteration exit
test. -/
def pivotTol : ℚ := 1 / 10 ^ 10

/-- The scan of `c3e_matrix_find_pivot` from row `i` on; the fuel counts
the remaining iterations `rows - i` of the C loop `for(i = row; i < rows;
i++)`. -/
def findPivotGo (m : c3e_matrix) (col : Nat) : Nat → Nat → Int
  | _, 0 => -1
  | i, fuel + 1 =>
      if |MATRIX_ELEM m i col| > pivotTol then (i : Int)
      else findPivotGo m col (i + 1) fuel

/-- `c3e_matrix_find_pivot`: scans rows `row, row+1, ...` of column `col`
and returns the first row whose entry exceeds `1e-10` in absolute value,
or `-1` when none does. -/
def c3e_matrix_find_pivot (m : c3e_matrix) (col row : Nat) : Int :=
  findPivotGo m col row (m.rows - row)

/-- `c3e_matrix_swap_rows`: returns unchanged when the two rows coincide,
otherwise exchanges the two row regions of the flat buffer (the loop swaps
the paired positions one column at a time). -/
def c3e_matrix_swap_rows (m : c3e_matrix) (row1 row2 : Nat) : c3e_matrix :=
  if row1 = row2 then m
  else
    { m with data := fun k =>
        if row1 * m.cols ≤ k ∧ k < row1 * m.cols + m.cols then
          m.data (k - row1 * m.cols + row2 * m.cols)
        else if row2 * m.cols ≤ k ∧ k < row2 * m.cols + m.cols then
          m.data (k - row2 * m.cols + row1 * m.cols)
        else m.data k }

/-- `c3e_matrix_multiply_row`: every entry of row `row` is multiplied by
`x` (the loop updates each position of the row region once). -/
def c3e_matrix_multiply_row (m : c3e_matrix) (row : Nat) (x : ℚ) : c3e_matrix :=
  { m with data := fun k =>
      if row * m.cols ≤ k ∧ k < row * m.cols + m.cols then m.data k * x
      else m.data k }

/-- `c3e_matrix_add_row`: row `row1` gains `scalar` times row `row2` (each
position of the row-1 region is updated once from the matching row-2
position of the same buffer). -/
def c3e_matrix_add_row (m : c3e_matrix) (row1 row2 : Nat) (scalar : ℚ) : c3e_matrix :=
  { m with data := fun k =>
      if row1 * m.cols ≤ k ∧ k < row1 * m.cols + m.cols then
        m.data k + scalar * m.data (k - row1 * m.cols + row2 * m.cols)
      else m.data k }

/-- Single element store `MATRIX_ELEM_AT(m, i, j) = v`. -/
def setElem (m : c3e_matrix) (i j : Nat) (v : ℚ) : c3e_matrix :=
  { m with data := upd m.data (i * m.cols + j) v }

/-- The submatrix buffer built by `c3e_matrix_determinant` for column `i`:
the loops copy the entries of rows `1..n-1` with column `i` skipped into the
`(n-1) × (n-1)` buffer in row-major order, so flat position `p` of the
submatrix holds the source entry in row `p / (n-1) + 1` and in column
`p % (n-1)` shifted right by one from column `i` on. -/
def detSub (n : Nat) (d : Nat → ℚ) (i : Nat) : Nat → ℚ :=
  fun p =>
    d ((p / (n - 1) + 1) * n +
      (if p % (n - 1) < i then p % (n - 1) else p % (n - 1) + 1))

/-- The recursion of `c3e_matrix_determinant` on the flat buffer of an
`n × n` matrix: the stored first element for `n = 1`, the closed 2 × 2
form, and the signed cofactor expansion along the first row otherwise
(the C `else` loop over an empty range leaves `out = 0.0` for `n = 0`). -/
def detAux : Nat → (Nat → ℚ) → ℚ
  | 0, _ => 0
  | 1, d => d 0
  | 2, d => d 0 * d 3 - d 1 * d 2
  | n + 3, d =>
      sumRange (n + 3) (fun i =>
        (if i % 2 = 0 then (1 : ℚ) else -1) * d i * detAux (n + 2) (detSub (n + 3) d i))

/-- `c3e_matrix_determinant`: asserts squareness (modelled as `none`), then
runs the cofactor recursion. -/
def c3e_matrix_determinant (m : c3e_matrix) : Option ℚ :=
  if m.rows = m.cols then some (detAux m.rows m.data) else none

/-- The final double loop of `c3e_matrix_row_echelon`: each in-range entry
equal to `-0.0` is overwritten with `0.0`.  In IEEE arithmetic
`x == -0.0` holds exactly when `x` is a zero, and ℚ has a single zero, so
the store rewrites zero entries with zero. -/
def negZeroScrub (m : c3e_matrix) : c3e_matrix :=
  { m with data := fun k =>
      if k < m.rows * m.cols then (if m.data k = 0 then 0 else m.data k)
      else m.data k }

/-- The elimination loop of `c3e_matrix_row_echelon`: every row other than
`lead` gains `-out[i][lead]` times the lead row. -/
def rowEchelonElim (rows lead : Nat) (out : c3e_matrix) : c3e_matrix :=
  foldRange rows
    (fun i acc =>
      if i ≠ lead then c3e_matrix_add_row acc i lead (-(MATRIX_ELEM acc i lead))
      else acc)
    out

/-- One iteration of the `while` loop of `c3e_matrix_row_echelon`: search a
pivot in column `lead` from row `lead`; if none, the iteration only
advances `lead`; otherwise swap the pivot row up, scale it to a leading 1
and eliminate the column from every other row. -/
def rowEchelonStep (rows lead : Nat) (out : c3e_matrix) : c3e_matrix :=
  let pivot := c3e_matrix_find_pivot out lead lead
  if pivot = -1 then out
  else
    let out1 := c3e_matrix_swap_rows out lead pivot.toNat
    let out2 := c3e_matrix_multiply_row out1 lead (1 / MATRIX_ELEM out1 lead lead)
    rowEchelonElim rows lead out2

/-- `c3e_matrix_row_echelon`: works on a copy; `lead` advances by one every
iteration and the loop runs while `lead < rows && lead < cols`, so it
performs exactly `min rows cols` iterations; negative zeros are scrubbed at
the end. -/
def c3e_matrix_row_echelon (m : c3e_matrix) : c3e_matrix :=
  negZeroScrub
    (foldRange (min m.rows m.cols) (fun lead out => rowEchelonStep m.rows lead out)
      (c3e_matrix_copy m))

/-- `c3e_matrix_non_zero_rows`: counts the in-range entries that are nonzero
and sit at a flat position `p` with `(p + 1) % cols == 0`, that is, in the
last column of their row. -/
def c3e_matrix_non_zero_rows (m : c3e_matrix) : Nat :=
  foldRange m.rows
    (fun i acc =>
      foldRange m.cols
        (fun j acc =>
          if m.data (i * m.cols + j) ≠ 0 ∧ (i * m.cols + j + 1) % m.cols = 0 then
            acc + 1
          else acc)
        acc)
    0

/-- `c3e_matrix_rank`: a square matrix with nonzero determinant short-cuts
to its dimension; each of the two remaining C branches reduces to
row-echelon form and counts the rows with a nonzero trailing entry. -/
def c3e_matrix_rank (m : c3e_matrix) : Nat :=
  if m.rows = m.cols ∧ detAux m.rows m.data ≠ 0 then m.rows
  else c3e_matrix_non_zero_rows (c3e_matrix_row_echelon m)

/-- The absolute-plus-relative tolerance of `c3e_matrix_all_close` around a
reference value: `1e-08 + 1e-05 * |ref|`. -/
def allCloseTol (ref : ℚ) : ℚ := 1 / 10 ^ 8 + 1 / 10 ^ 5 * |ref|

/-- `c3e_matrix_all_close`: `false` on a dimension mismatch, otherwise the
scan returns `false` on the first entry pair whose difference exceeds the
tolerance around the second argument. -/
def c3e_matrix_all_close (m s : c3e_matrix) : Bool :=
  if m.rows = s.rows ∧ m.cols = s.cols then
    allRange m.rows (fun i =>
      allRange m.cols (fun j =>
        !(decide (|MATRIX_ELEM m i j - MATRIX_ELEM s i j| > allCloseTol (MATRIX_ELEM s i j)))))
  else false

/-- `c3e_matrix_mul`: asserts `matrix->cols == subject->rows` (modelled as
`none`), then stores at each in-range target `(i, j)` the accumulated sum
over `k` of `matrix[i][k] * subject[k][j]`. -/
def c3e_matrix_mul (m s : c3e_matrix) : Option c3e_matrix :=
  if m.cols = s.rows then
    some ⟨m.rows, s.cols, fun p =>
      if p < m.rows * s.cols then
        sumRange m.cols (fun k => MATRIX_ELEM m (p / s.cols) k * MATRIX_ELEM s k (p % s.cols))
      else 0⟩
  else none

/-- A rectangular block of stores: for `i < R` and `j < C` in loop order,
position `i * oc + (j + off)` receives `src i j`.  Both copy loops of
`c3e_matrix_append` have this shape. -/
def writeBlock (R C oc off : Nat) (src : Nat → Nat → ℚ) (d : Nat → ℚ) : Nat → ℚ :=
  foldRange R
    (fun i acc => foldRange C (fun j acc => upd acc (i * oc + (j + off)) (src i j)) acc)
    d

/-- `c3e_matrix_append`: axis 0 asserts equal row counts and writes the
first block at column offset 0 and the second at column offset
`matrix->rows` (the C uses the row count, not the column count, as the
offset); axis 1 asserts equal column counts and offsets the second block by
`matrix->rows * matrix->cols` flat positions; any other axis returns a zero
matrix shaped like the first argument. -/
def c3e_matrix_append (m s : c3e_matrix) (axis : Nat) : Option c3e_matrix :=
  if axis = 0 then
    if m.rows = s.rows then
      some ⟨m.rows, m.cols + s.cols,
        writeBlock s.rows s.cols (m.cols + s.cols) m.rows (fun i j => MATRIX_ELEM s i j)
          (writeBlock m.rows m.cols (m.cols + s.cols) 0 (fun i j => MATRIX_ELEM m i j)
            (fun _ => 0))⟩
    else none
  else if axis = 1 then
    if m.cols = s.cols then
      some ⟨m.rows + s.rows, m.cols,
        writeBlock s.rows s.cols m.cols (m.rows * m.cols) (fun i j => MATRIX_ELEM s i j)
          (writeBlock m.rows m.cols m.cols 0 (fun i j => MATRIX_ELEM m i j)
            (fun _ => 0))⟩
    else none
  else some (c3e_matrix_zeros m.rows m.cols)

/-- The augmented-and-reduced matrix of `c3e_matrix_inverse`: the input with
an identity block appended on the right, brought to row-echelon form.  The
append always succeeds there because the identity block has the same row
count. -/
def invEchelon (m : c3e_matrix) : c3e_matrix :=
  match c3e_matrix_append m (c3e_matrix_identity m.rows) 0 with
  | some aug => c3e_matrix_row_echelon aug
  | none => c3e_matrix_zeros 0 0

/-- `c3e_matrix_inverse`: asserts squareness and a nonzero determinant
(modelled as `none`), reduces the augmented matrix and slices out the right
half: target `(i, j)` reads flat position `i * (2 * n) + n + j` of the
reduced matrix. -/
def c3e_matrix_inverse (m : c3e_matrix) : Option c3e_matrix :=
  if m.rows = m.cols then
    if detAux m.rows m.data = 0 then none
    else
      some ⟨m.rows, m.rows, fun p =>
        if p < m.rows * m.rows then
          (invEchelon m).data ((p / m.rows) * (2 * m.rows) + m.rows + p % m.rows)
        else 0⟩
  else none

/-- `c3e_vector_get`: bounds-checked read, `0.0` out of range. -/
def c3e_vector_get (v : c3e_vector) (index : Nat) : ℚ :=
  if index ≥ v.size then 0 else v.data index

/-- `c3e_vector_set`: bounds-checked store, no effect out of range. -/
def c3e_vector_set (v : c3e_vector) (index : Nat) (value : ℚ) : c3e_vector :=
  if index ≥ v.size then v else { v with data := upd v.data index value }

/-- `c3e_vector_dot_cols`: inner product of column `col1` of the first
matrix and column `col2` of the second, over the row count of the first. -/
def c3e_vector_dot_cols (m : c3e_matrix) (col1 : Nat) (s : c3e_matrix) (col2 : Nat) : ℚ :=
  sumRange m.rows (fun i => MATRIX_ELEM m i col1 * MATRIX_ELEM s i col2)

/-- Largest `k` with `k * k ≤ n` (an executable integer square root used
only to embed the libm square root below). -/
def natSqrt (n : Nat) : Nat :=
  foldRange (n + 1) (fun k acc => if k * k ≤ n then k else acc) 0

/-- Embedding of the libm `sqrt` the C code calls: on the rationals arising
in the verified runs the argument is a perfect square and the exact
nonnegative root is returned; any other argument yields the junk value 0
(the C result there is irrational or NaN, outside the exact model). -/
def ratSqrt (q : ℚ) : ℚ :=
  if 0 ≤ q ∧ natSqrt q.num.toNat * natSqrt q.num.toNat = q.num.toNat ∧
      natSqrt q.den * natSqrt q.den = q.den then
    (natSqrt q.num.toNat : ℚ) / (natSqrt q.den : ℚ)
  else 0

/-- `c3e_vector_length`: Euclidean norm of column `col`, the square root of
the accumulated sum of squares down the column. -/
def c3e_vector_length (m : c3e_matrix) (col : Nat) : ℚ :=
  ratSqrt (sumRange m.rows (fun i => MATRIX_ELEM m i col * MATRIX_ELEM m i col))

/-- `matrix_col_copy`: stores `matrix[i][col]` into `dst[i][dst_col]` for
each row `i` of the source. -/
def matrix_col_copy (m : c3e_matrix) (col : Nat) (dst : c3e_matrix) (dst_col : Nat) : c3e_matrix :=
  { dst with data :=
      (foldRange m.rows (fun i acc => upd acc (i * dst.cols + dst_col) (MATRIX_ELEM m i col))
        dst.data) }

/-- `matrix_col_subtract`: `matrix[i][col] -= scalar * dst[i][dst_col]` for
each row `i`.  The only call site passes the same matrix for both
arguments with `col ≠ dst_col`, so the read positions are disjoint from the
written ones and reading from the entry state matches the in-place C loop. -/
def matrix_col_subtract (m : c3e_matrix) (col : Nat) (dst : c3e_matrix) (dst_col : Nat)
    (scalar : ℚ) : c3e_matrix :=
  { m with data :=
      (foldRange m.rows
        (fun i acc =>
          upd acc (i * m.cols + col) (acc (i * m.cols + col) - scalar * MATRIX_ELEM dst i dst_col))
        m.data) }

/-- `matrix_col_divide`: `matrix[i][col] /= scalar` for each row `i`. -/
def matrix_col_divide (m : c3e_matrix) (col : Nat) (scalar : ℚ) : c3e_matrix :=
  { m with data :=
      (foldRange m.rows
        (fun i acc => upd acc (i * m.cols + col) (acc (i * m.cols + col) / scalar))
        m.data) }

/-- `c3e_matrix_qr_decomp` (matrix_tuple.c): asserts squareness and a
nonzero determinant (modelled as `none`), then runs Gram-Schmidt over the
columns of a copy: column `i` is copied into the orthogonal accumulator;
for each earlier column `j` the coefficient `r` is the dot product of the
current column `i` with column `j`, recorded at `uppertri[j][i]`, and
`r` times column `j` is subtracted; finally the Euclidean length of the
column is recorded at `uppertri[i][i]` and divides the column. -/
def c3e_matrix_qr_decomp (m : c3e_matrix) : Option c3e_matrix_tuple :=
  if m.rows = m.cols then
    if detAux m.rows m.data = 0 then none
    else
      let original := c3e_matrix_copy m
      let result :=
        foldRange original.cols
          (fun i qu =>
            let orth0 := matrix_col_copy original i qu.1 i
            let inner :=
              foldRange i
                (fun j qu2 =>
                  let r := c3e_vector_dot_cols qu2.1 i qu2.1 j
                  let ut := setElem qu2.2 j i r
                  let orth := matrix_col_subtract qu2.1 i qu2.1 j r
                  (orth, ut))
                (orth0, qu.2)
            let norm := c3e_vector_length inner.1 i
            let ut2 := setElem inner.2 i i norm
            let orth2 := matrix_col_divide inner.1 i norm
            (orth2, ut2))
          (c3e_matrix_zeros m.rows m.cols, c3e_matrix_zeros m.rows m.cols)
      some ⟨result.1, result.2⟩
  else none

/-- `c3e_matrix_tril`: asserts squareness (modelled as `none`); the target
keeps the entries with `j <= i - diag` and zeroes the rest.  (Note the
sign: for the documented numpy convention of keeping the part on and below
the `diag`-th diagonal the test would be `j <= i + diag`.) -/
def c3e_matrix_tril (m : c3e_matrix) (diag : Int) : Option c3e_matrix :=
  if m.rows = m.cols then
    some ⟨m.rows, m.cols, fun k =>
      if k < m.rows * m.cols then
        if ((k % m.cols : Int)) ≤ ((k / m.cols : Int)) - diag then m.data k else 0
      else 0⟩
  else none

/-- `c3e_matrix_abs`: elementwise absolute value into a fresh matrix. -/
def c3e_matrix_abs (m : c3e_matrix) : c3e_matrix :=
  ⟨m.rows, m.cols, fun k => if k < m.rows * m.cols then |m.data k| else 0⟩

/-- `c3e_matrix_max`: running maximum over the flat buffer, started at
`-INFINITY`, which the rational model represents as `none`. -/
def c3e_matrix_max (m : c3e_matrix) : Option ℚ :=
  foldRange (m.rows * m.cols)
    (fun i acc =>
      match acc with
      | none => some (m.data i)
      | some v => if m.data i > v then some (m.data i) else some v)
    none

/-- One iteration body of `c3e_matrix_qr_algo`: decompose the current
iterate into `(Q, R)` and reassemble as `R * Q`. -/
def qrAlgoStep (out : c3e_matrix) : Option c3e_matrix :=
  match c3e_matrix_qr_decomp out with
  | some qr => c3e_matrix_mul qr.b qr.a
  | none => none

/-- The exit test of `c3e_matrix_qr_algo`:
`c3e_matrix_max(c3e_matrix_abs(c3e_matrix_tril(out, -1))) < 1e-10`, with
`-INFINITY` (an empty maximum) below every bound. -/
def qrAlgoCheck (out : c3e_matrix) : Option Bool :=
  (c3e_matrix_tril out (-1)).map (fun t =>
    match c3e_matrix_max (c3e_matrix_abs t) with
    | none => true
    | some v => decide (v < pivotTol))

/-- The capped loop of `c3e_matrix_qr_algo` with the number of executed
iterations: each iteration steps and then exits when the test holds. -/
def qrAlgoLoop : Nat → c3e_matrix → Option (c3e_matrix × Nat)
  | 0, out => some (out, 0)
  | fuel + 1, out =>
      match qrAlgoStep out with
      | none => none
      | some out2 =>
          match qrAlgoCheck out2 with
          | none => none
          | some true => some (out2, 1)
          | some false => (qrAlgoLoop fuel out2).map (fun p => (p.1, p.2 + 1))

/-- `c3e_matrix_qr_algo`: up to 500 QR iterations on a copy of the input. -/
def c3e_matrix_qr_algo (m : c3e_matrix) : Option c3e_matrix :=
  (qrAlgoLoop 500 (c3e_matrix_copy m)).map Prod.fst

/-- The outer loop of `c3e_matrix_lu_decomp` on entry tables
(`l r k` and `u r k` hold `lower[r][k]` and `upper[r][k]`, zero before
being written, matching the `calloc` buffers): iteration `i` fills row `i`
of `upper` for every column, then column `i` of `lower` below the diagonal
using the just-written pivot `upper[i][i]`, then sets `lower[i][i] = 1`. -/
def luStep (A : c3e_matrix) (n i : Nat) (lu : (Nat → Nat → ℚ) × (Nat → Nat → ℚ)) :
    (Nat → Nat → ℚ) × (Nat → Nat → ℚ) :=
  let l := lu.1
  let u := lu.2
  let u2 : Nat → Nat → ℚ := fun r k =>
    if r = i ∧ k < n then MATRIX_ELEM A r k - sumRange i (fun j => l r j * u j k)
    else u r k
  let l2 : Nat → Nat → ℚ := fun r k =>
    if k = i ∧ i + 1 ≤ r ∧ r < n then
      (MATRIX_ELEM A r k - sumRange i (fun j => l r j * u j k)) / u2 i i
    else if r = i ∧ k = i then 1
    else l r k
  (l2, u2)

def luIter (A : c3e_matrix) (n : Nat) : (Nat → Nat → ℚ) × (Nat → Nat → ℚ) :=
  foldRange n (luStep A n) (fun _ _ => 0, fun _ _ => 0)

/-- The `(L, U)` pair `c3e_matrix_lu_decomp` builds for a square input of
side `rows`. -/
def luPair (A : c3e_matrix) : c3e_matrix_tuple :=
  let n := A.rows
  let lu := luIter A n
  ⟨⟨n, n, fun p => lu.1 (p / n) (p % n)⟩, ⟨n, n, fun p => lu.2 (p / n) (p % n)⟩⟩

/-- `c3e_matrix_lu_decomp` (matrix_tuple.c): asserts squareness (modelled
as `none`), then runs the Doolittle elimination. -/
def c3e_matrix_lu_decomp (A : c3e_matrix) : Option c3e_matrix_tuple :=
  if A.rows = A.cols then some (luPair A) else none

/-- `c3e_matrix_cholesky_decomp`: asserts that the input is all-close to
its transpose (modelled as `none`), then for each row `i` and column
`j ≤ i` accumulates the partial products of the rows built so far: the
diagonal takes a square root, the off-diagonal entries divide by the
already-computed diagonal. -/
def c3e_matrix_cholesky_decomp (m : c3e_matrix) : Option c3e_matrix :=
  if c3e_matrix_all_close m (c3e_matrix_transpose m) = true then
    some
      (foldRange m.rows
        (fun i L =>
          foldRange (i + 1)
            (fun j L =>
              let s := sumRange j (fun k => MATRIX_ELEM L i k * MATRIX_ELEM L j k)
              if i = j then setElem L i j (ratSqrt (MATRIX_ELEM m i j - s))
              else setElem L i j (1 / MATRIX_ELEM L j j * (MATRIX_ELEM m i j - s)))
            L)
        (c3e_matrix_zeros m.rows m.cols))
  else none

set_option maxRecDepth 4000000

/-- Boolean equality on ℚ through the order (used in concrete statements;
it evaluates where the structural equality instance is too slow). -/
def ratEqB (a b : ℚ) : Bool := decide (a ≤ b) && decide (b ≤ a)

theorem ratEqB_iff (a b : ℚ) : ratEqB a b = true ↔ a = b := by
  simp only [ratEqB, Bool.and_eq_true, decide_eq_true_eq]
  exact le_antisymm_iff.symm

theorem c3e_matrix_swap_rows_rows (m : c3e_matrix) (r1 r2 : Nat) :
    (c3e_matrix_swap_rows m r1 r2).rows = m.rows := by
  unfold c3e_matrix_swap_rows
  split <;> rfl

theorem c3e_matrix_swap_rows_cols (m : c3e_matrix) (r1 r2 : Nat) :
    (c3e_matrix_swap_rows m r1 r2).cols = m.cols := by
  unfold c3e_matrix_swap_rows
  split <;> rfl

theorem c3e_matrix_multiply_row_rows (m : c3e_matrix) (r : Nat) (x : ℚ) :
    (c3e_matrix_multiply_row m r x).rows = m.rows := rfl

theorem c3e_matrix_multiply_row_cols (m : c3e_matrix) (r : Nat) (x : ℚ) :
    (c3e_matrix_multiply_row m r x).cols = m.cols := rfl

theorem c3e_matrix_add_row_rows (m : c3e_matrix) (r1 r2 : Nat) (s : ℚ) :
    (c3e_matrix_add_row m r1 r2 s).rows = m.rows := rfl

theorem c3e_matrix_add_row_cols (m : c3e_matrix) (r1 r2 : Nat) (s : ℚ) :
    (c3e_matrix_add_row m r1 r2 s).cols = m.cols := rfl

theorem negZeroScrub_rows (m : c3e_matrix) : (negZeroScrub m).rows = m.rows := rfl

theorem negZeroScrub_cols (m : c3e_matrix) : (negZeroScrub m).cols = m.cols := rfl

/-- The negative-zero scrub leaves every buffer value unchanged in the
exact model. -/
theorem negZeroScrub_data (m : c3e_matrix) (k : Nat) :
    (negZeroScrub m).data k = m.data k := by
  unfold negZeroScrub
  by_cases h1 : k < m.rows * m.cols
  · by_cases h2 : m.data k = 0 <;> simp [h1, h2]
  · simp [h1]

/-- The row index that row swapping sends row `i` to. -/
def swapIdx (r1 r2 i : Nat) : Nat :=
  if i = r1 then r2 else if i = r2 then r1 else i

theorem MATRIX_ELEM_swap_rows (m : c3e_matrix) (r1 r2 i j : Nat) (hj : j < m.cols) :
    MATRIX_ELEM (c3e_matrix_swap_rows m r1 r2) i j = MATRIX_ELEM m (swapIdx r1 r2 i) j := by
  by_cases hr : r1 = r2
  · subst hr
    unfold c3e_matrix_swap_rows swapIdx
    rw [if_pos rfl]
    by_cases h1 : i = r1
    · rw [if_pos h1, h1]
    · rw [if_neg h1, if_neg h1]
  · unfold c3e_matrix_swap_rows swapIdx MATRIX_ELEM
    rw [if_neg hr]
    show (if r1 * m.cols ≤ i * m.cols + j ∧ i * m.cols + j < r1 * m.cols + m.cols then
        m.data (i * m.cols + j - r1 * m.cols + r2 * m.cols)
      else if r2 * m.cols ≤ i * m.cols + j ∧ i * m.cols + j < r2 * m.cols + m.cols then
        m.data (i * m.cols + j - r2 * m.cols + r1 * m.cols)
      else m.data (i * m.cols + j)) = _
    by_cases h1 : i = r1
    · subst h1
      rw [if_pos ((row_region_iff hj).mpr rfl), if_pos rfl]
      congr 1
      omega
    · rw [if_neg (fun hcon => h1 ((row_region_iff hj).mp hcon)), if_neg h1]
      by_cases h2 : i = r2
      · subst h2
        rw [if_pos ((row_region_iff hj).mpr rfl), if_pos rfl]
        congr 1
        omega
      · rw [if_neg (fun hcon => h2 ((row_region_iff hj).mp hcon)), if_neg h2]

theorem MATRIX_ELEM_multiply_row (m : c3e_matrix) (r : Nat) (x : ℚ) (i j : Nat)
    (hj : j < m.cols) :
    MATRIX_ELEM (c3e_matrix_multiply_row m r x) i j =
      if i = r then MATRIX_ELEM m i j * x else MATRIX_ELEM m i j := by
  unfold c3e_matrix_multiply_row
  show (if r * m.cols ≤ i * m.cols + j ∧ i * m.cols + j < r * m.cols + m.cols then
      m.data (i * m.cols + j) * x else m.data (i * m.cols + j)) = _
  by_cases h1 : i = r
  · rw [if_pos ((row_region_iff hj).mpr h1), if_pos h1]
    rfl
  · rw [if_neg (fun hcon => h1 ((row_region_iff hj).mp hcon)), if_neg h1]
    rfl

theorem MATRIX_ELEM_add_row (m : c3e_matrix) (r1 r2 : Nat) (s : ℚ) (i j : Nat)
    (hj : j < m.cols) :
    MATRIX_ELEM (c3e_matrix_add_row m r1 r2 s) i j =
      if i = r1 then MATRIX_ELEM m i j + s * MATRIX_ELEM m r2 j else MATRIX_ELEM m i j := by
  unfold c3e_matrix_add_row
  show (if r1 * m.cols ≤ i * m.cols + j ∧ i * m.cols + j < r1 * m.cols + m.cols then
      m.data (i * m.cols + j) + s * m.data (i * m.cols + j - r1 * m.cols + r2 * m.cols)
      else m.data (i * m.cols + j)) = _
  by_cases h1 : i = r1
  · rw [if_pos ((row_region_iff hj).mpr h1), if_pos h1]
    subst h1
    show m.data _ + s * m.data (i * m.cols + j - i * m.cols + r2 * m.cols) = _
    have : i * m.cols + j - i * m.cols + r2 * m.cols = r2 * m.cols + j := by omega
    rw [this]
    rfl
  · rw [if_neg (fun hcon => h1 ((row_region_iff hj).mp hcon)), if_neg h1]
    rfl

theorem MATRIX_ELEM_copy (m : c3e_matrix) (i j : Nat) (hi : i < m.rows) (hj : j < m.cols) :
    MATRIX_ELEM (c3e_matrix_copy m) i j = MATRIX_ELEM m i j := by
  unfold c3e_matrix_copy MATRIX_ELEM
  simp only
  rw [if_pos (flat_idx_lt hi hj)]

/-- The scan of the pivot search returns either the least adequate row of
the scanned range or `-1` when the range holds none. -/
theorem findPivotGo_spec (m : c3e_matrix) (col : Nat) :
    ∀ fuel row, fuel = m.rows - row →
      (∃ i : Nat, findPivotGo m col row fuel = (i : Int) ∧ row ≤ i ∧ i < m.rows ∧
          |MATRIX_ELEM m i col| > pivotTol ∧
          (∀ k, row ≤ k → k < i → ¬(|MATRIX_ELEM m k col| > pivotTol))) ∨
      (findPivotGo m col row fuel = -1 ∧
          ∀ i, row ≤ i → i < m.rows → ¬(|MATRIX_ELEM m i col| > pivotTol)) := by
  intro fuel
  induction fuel with
  | zero =>
      intro row hrow
      right
      exact ⟨rfl, fun i h1 h2 => absurd h2 (by omega)⟩
  | succ f ih =>
      intro row hrow
      unfold findPivotGo
      by_cases hbig : |MATRIX_ELEM m row col| > pivotTol
      · left
        exact ⟨row, by rw [if_pos hbig], Nat.le_refl _, by omega, hbig,
          fun k h1 h2 => absurd h2 (by omega)⟩
      · rw [if_neg hbig]
        rcases ih (row + 1) (by omega) with ⟨i, heq, h1, h2, h3, h4⟩ | ⟨heq, hall⟩
        · left
          refine ⟨i, heq, by omega, h2, h3, fun k hk1 hk2 => ?_⟩
          rcases Nat.eq_or_lt_of_le hk1 with h | h
          · exact h ▸ hbig
          · exact h4 k h hk2
        · right
          refine ⟨heq, fun i hi1 hi2 => ?_⟩
          rcases Nat.eq_or_lt_of_le hi1 with h | h
          · exact h ▸ hbig
          · exact hall i h hi2

/-- When the pivot search does not return `-1`, it returns an adequate row
of the scanned range. -/
theorem findPivot_found (m : c3e_matrix) (col row : Nat)
    (h : c3e_matrix_find_pivot m col row ≠ -1) :
    row ≤ (c3e_matrix_find_pivot m col row).toNat ∧
      (c3e_matrix_find_pivot m col row).toNat < m.rows ∧
      |MATRIX_ELEM m (c3e_matrix_find_pivot m col row).toNat col| > pivotTol := by
  rcases findPivotGo_spec m col (m.rows - row) row rfl with ⟨i, heq, h1, h2, h3, _⟩ | ⟨heq, _⟩
  · unfold c3e_matrix_find_pivot
    rw [heq]
    exact ⟨by simpa using h1, by simpa using h2, by simpa using h3⟩
  · exact absurd heq h

/-- When every scanned entry is within tolerance, the pivot search returns
`-1`. -/
theorem findPivot_none (m : c3e_matrix) (col row : Nat)
    (h : ∀ i, row ≤ i → i < m.rows → ¬(|MATRIX_ELEM m i col| > pivotTol)) :
    c3e_matrix_find_pivot m col row = -1 := by
  rcases findPivotGo_spec m col (m.rows - row) row rfl with ⟨i, _, h1, h2, h3, _⟩ | ⟨heq, _⟩
  · exact absurd h3 (h i h1 h2)
  · exact heq

/-- Claim C7: for every matrix, column index and starting row,
`c3e_matrix_find_pivot` returns the smallest row index `i` with
`row ≤ i < rows` whose entry in the column exceeds `1e-10` in absolute
value, and the sentinel `-1` when no such row exists. -/
theorem claim_C7_find_pivot (m : c3e_matrix) (col row : Nat) :
    (∃ i : Nat, c3e_matrix_find_pivot m col row = (i : Int) ∧ row ≤ i ∧ i < m.rows ∧
        |MATRIX_ELEM m i col| > pivotTol ∧
        (∀ k, row ≤ k → k < i → ¬(|MATRIX_ELEM m k col| > pivotTol))) ∨
    (c3e_matrix_find_pivot m col row = -1 ∧
        ∀ i, row ≤ i → i < m.rows → ¬(|MATRIX_ELEM m i col| > pivotTol)) :=
  findPivotGo_spec m col (m.rows - row) row rfl

/-- Claim C9: transposing twice restores the row count, the column count
and every element of the original matrix. -/
theorem claim_C9_transpose_involution (m : c3e_matrix) :
    (c3e_matrix_transpose (c3e_matrix_transpose m)).rows = m.rows ∧
    (c3e_matrix_transpose (c3e_matrix_transpose m)).cols = m.cols ∧
    ∀ i j, i < m.rows → j < m.cols →
      MATRIX_ELEM (c3e_matrix_transpose (c3e_matrix_transpose m)) i j = MATRIX_ELEM m i j := by
  refine ⟨rfl, rfl, fun i j hi hj => ?_⟩
  unfold c3e_matrix_transpose MATRIX_ELEM
  simp only
  rw [if_pos (flat_idx_lt hi hj)]
  rw [flat_idx_mod hj, flat_idx_div hj]
  rw [if_pos (flat_idx_lt hj hi)]
  rw [flat_idx_mod hi, flat_idx_div hi]

/-- Claim C10: vector reads out of bounds return `0.0` and vector stores
out of bounds change nothing, while the matrix accessor `get_at` has no
bounds check: reading column index `cols` of row 0 returns the element
stored at row 1, column 0. -/
theorem claim_C10_vector_bounds (v : c3e_vector) (idx : Nat) (x : ℚ) :
    (v.size ≤ idx → c3e_vector_get v idx = 0) ∧
    (v.size ≤ idx → c3e_vector_set v idx x = v) ∧
    (∀ m : c3e_matrix, c3e_matrix_get_at m 0 m.cols = MATRIX_ELEM m 1 0) := by
  refine ⟨fun h => ?_, fun h => ?_, fun m => ?_⟩
  · unfold c3e_vector_get
    rw [if_pos h]
  · unfold c3e_vector_set
    rw [if_pos h]
  · unfold c3e_matrix_get_at MATRIX_ELEM
    simp

/-- Claim C8: `c3e_matrix_inverse` and `c3e_matrix_qr_decomp` fail their
assertions (modelled as `none`) on every non-square input and on every
square input of determinant zero, and `c3e_matrix_lu_decomp` fails on every
non-square input. -/
theorem claim_C8_assert_guards (m : c3e_matrix) :
    (m.rows ≠ m.cols → c3e_matrix_inverse m = none) ∧
    (c3e_matrix_determinant m = some 0 → c3e_matrix_inverse m = none) ∧
    (m.rows ≠ m.cols → c3e_matrix_qr_decomp m = none) ∧
    (c3e_matrix_determinant m = some 0 → c3e_matrix_qr_decomp m = none) ∧
    (m.rows ≠ m.cols → c3e_matrix_lu_decomp m = none) := by
  have hdet : c3e_matrix_determinant m = some 0 → m.rows = m.cols ∧ detAux m.rows m.data = 0 := by
    intro h
    unfold c3e_matrix_determinant at h
    by_cases hsq : m.rows = m.cols
    · rw [if_pos hsq] at h
      exact ⟨hsq, Option.some_injective _ h⟩
    · rw [if_neg hsq] at h
      exact absurd h (by simp)
  refine ⟨fun h => ?_, fun h => ?_, fun h => ?_, fun h => ?_, fun h => ?_⟩
  · unfold c3e_matrix_inverse
    rw [if_neg h]
  · rcases hdet h with ⟨hsq, hz⟩
    unfold c3e_matrix_inverse
    rw [if_pos hsq, if_pos hz]
  · unfold c3e_matrix_qr_decomp
    rw [if_neg h]
  · rcases hdet h with ⟨hsq, hz⟩
    unfold c3e_matrix_qr_decomp
    rw [if_pos hsq, if_pos hz]
  · unfold c3e_matrix_lu_decomp
    rw [if_neg h]

/-- The symmetric positive-definite input of the concrete Cholesky
scenario of the specification. -/
def cholInputA : c3e_matrix :=
  ⟨3, 3, fun k =>
    if k = 0 then 4 else if k = 1 then 12 else if k = 2 then -16
    else if k = 3 then 12 else if k = 4 then 37 else if k = 5 then -43
    else if k = 6 then -16 else if k = 7 then -43 else if k = 8 then 98 else 0⟩

/-- The expected lower-triangular factor of that scenario. -/
def cholExpectedL : c3e_matrix :=
  ⟨3, 3, fun k =>
    if k = 0 then 2 else if k = 3 then 6 else if k = 4 then 1
    else if k = 6 then -8 else if k = 7 then 5 else if k = 8 then 3 else 0⟩

/-- Claim C6: on `A = [[4,12,-16],[12,37,-43],[-16,-43,98]]` the Cholesky
decomposition passes its symmetry assertion and returns a matrix all-close
to `L = [[2,0,0],[6,1,0],[-8,5,3]]`. -/
theorem claim_C6_cholesky_concrete :
    (c3e_matrix_cholesky_decomp cholInputA).map
        (fun L => c3e_matrix_all_close L cholExpectedL) = some true := by
  with_unfolding_all decide

/-- The 2 × 2 identity, a failing input for the exit test of
`c3e_matrix_qr_algo`. -/
def qrIdentityInput : c3e_matrix := c3e_matrix_identity 2

/-- Claim C3 evaluated at the failing input: after the first iteration on
the 2 × 2 identity every strictly-lower entry of the iterate is zero (so
the quantity the claim names is below `1e-10`), yet the exit test of the
code is `false` — its `tril(out, -1)` keeps the diagonal — and with fuel
for two iterations the loop indeed performs both instead of stopping after
the first. -/
theorem claim_C3_tril_bug_eval :
    (qrAlgoStep (c3e_matrix_copy qrIdentityInput)).map (fun o =>
        (allRange o.rows (fun i => allRange i (fun j => ratEqB (MATRIX_ELEM o i j) 0)),
         qrAlgoCheck o)) = some (true, some false) ∧
    (qrAlgoLoop 2 (c3e_matrix_copy qrIdentityInput)).map Prod.snd = some 2 := by
  exact ⟨by with_unfolding_all decide, by with_unfolding_all decide⟩

/-- A 1 × 1 matrix whose single entry `1e-11` is nonzero but below the
pivot tolerance. -/
def invTinyA : c3e_matrix := ⟨1, 1, fun _ => 1 / 10 ^ 11⟩

/-- Claim C1 counterexample: `[[1e-11]]` is square with nonzero
determinant, yet `A * inverse(A)` is not all-close to the identity — the
pivot search treats the entry as zero, the augmented reduction leaves the
right half at 1, and `A * inverse(A) = [[1e-11]]`. -/
theorem claim_C1_counterexample :
    invTinyA.rows = invTinyA.cols ∧ detAux invTinyA.rows invTinyA.data ≠ 0 ∧
    ((c3e_matrix_inverse invTinyA).bind (fun inv => c3e_matrix_mul invTinyA inv)).map
        (fun p => c3e_matrix_all_close p (c3e_matrix_identity 1)) = some false := by
  refine ⟨rfl, ?_, ?_⟩
  · with_unfolding_all decide
  · with_unfolding_all decide

/-- The antidiagonal permutation matrix `[[0,1],[1,0]]`: nonsingular, but
its leading 1 × 1 minor is zero, so Doolittle elimination meets a zero
pivot. -/
def luBadA : c3e_matrix :=
  ⟨2, 2, fun k => if k = 1 then 1 else if k = 2 then 1 else 0⟩

/-- Claim C2 counterexample: `[[0,1],[1,0]]` is square with nonzero
determinant, `c3e_matrix_lu_decomp` returns a pair, and the entry of `U`
strictly below the diagonal at `(1, 0)` is nonzero, so `U` is not
upper-triangular as the claim states. -/
theorem claim_C2_counterexample :
    luBadA.rows = luBadA.cols ∧ detAux luBadA.rows luBadA.data ≠ 0 ∧
    c3e_matrix_lu_decomp luBadA = some (luPair luBadA) ∧
    ratEqB (MATRIX_ELEM (luPair luBadA).b 1 0) 0 = false := by
  refine ⟨rfl, ?_, rfl, ?_⟩
  · with_unfolding_all decide
  · with_unfolding_all decide

/-- A matrix on which row reduction magnifies a below-tolerance entry: the
skipped first column receives `1000 * 1e-11 = 1e-8 > 1e-10` during the
elimination of the second column. -/
def echBadA : c3e_matrix :=
  ⟨2, 2, fun k =>
    if k = 0 then 0 else if k = 1 then -1000 else if k = 2 then 1 / 10 ^ 11 else 1⟩

/-- Claim C4 counterexample: applying `c3e_matrix_row_echelon` twice to
`[[0,-1000],[1e-11,1]]` changes the entry at `(0, 0)` (the first pass
leaves `1e-8` there, the second normalises it to 1), so the reduction is
not idempotent element-for-element. -/
theorem claim_C4_counterexample :
    ratEqB (MATRIX_ELEM (c3e_matrix_row_echelon (c3e_matrix_row_echelon echBadA)) 0 0)
      (MATRIX_ELEM (c3e_matrix_row_echelon echBadA) 0 0) = false := by
  with_unfolding_all decide

theorem foldRange_fixed {σ : Type _} (n : Nat) (f : Nat → σ → σ) (s : σ)
    (h : ∀ i, i < n → ∀ t, f i t = t) : foldRange n f s = s := by
  induction n with
  | zero => rfl
  | succ m ih =>
      rw [foldRange_succ, ih (fun i hi t => h i (Nat.lt_succ_of_lt hi) t),
        h m (Nat.lt_succ_self m)]

theorem sumRange_eq_first (n : Nat) (f : Nat → ℚ) (hn : 0 < n)
    (h : ∀ k, k < n → k ≠ 0 → f k = 0) : sumRange n f = f 0 := by
  induction n with
  | zero => omega
  | succ m ih =>
      rw [sumRange_succ]
      rcases Nat.eq_zero_or_pos m with hm | hm
      · subst hm
        show (0 : ℚ) + f 0 = f 0
        rw [zero_add]
      · rw [ih hm (fun k hk => h k (Nat.lt_succ_of_lt hk)),
          h m (Nat.lt_succ_self m) (by omega), add_zero]

/-- The diagonal stores of the identity loop land where intended. -/
theorem identity_data_diag (side i : Nat) (hi : i < side) :
    (c3e_matrix_identity side).data (i * side + i) = 1 := by
  unfold c3e_matrix_identity
  have key : ∀ t, ∀ d0 : Nat → ℚ, i < t →
      foldRange t (fun a d => upd d (a * side + a) 1) d0 (i * side + i) = 1 := by
    intro t
    induction t with
    | zero => intro d0 h; omega
    | succ s ih =>
        intro d0 h
        rw [foldRange_succ]
        by_cases hs : i = s
        · subst hs
          exact upd_same _ _ _
        · rw [upd_other _ _ _ _ (by
            intro hcon
            rcases Nat.lt_or_ge s side with hs2 | hs2
            · have h1 : (i * side + i) / side = i := flat_idx_div hi
              have h2 : (s * side + s) / side = s := flat_idx_div hs2
              rw [hcon] at h1
              omega
            · have hin : i * side + i < side * side := flat_idx_lt hi hi
              have hout : side * side ≤ s * side + s := by nlinarith
              omega)]
          exact ih d0 (by omega)
  exact key side _ hi

/-- The identity loop leaves every non-diagonal position at zero. -/
theorem identity_data_off (side k : Nat) (hk : ∀ i, i < side → k ≠ i * side + i) :
    (c3e_matrix_identity side).data k = 0 := by
  unfold c3e_matrix_identity
  have key : ∀ t, t ≤ side →
      foldRange t (fun a d => upd d (a * side + a) 1) (fun _ => (0 : ℚ)) k = 0 := by
    intro t
    induction t with
    | zero => intro _; rfl
    | succ s ih =>
        intro h
        rw [foldRange_succ, upd_other _ _ _ _ (hk s (by omega)), ih (by omega)]
  exact key side (Nat.le_refl side)

theorem MATRIX_ELEM_identity (n i j : Nat) (hi : i < n) (hj : j < n) :
    MATRIX_ELEM (c3e_matrix_identity n) i j = if i = j then 1 else 0 := by
  by_cases hij : i = j
  · subst hij
    rw [if_pos rfl]
    exact identity_data_diag n i hi
  · rw [if_neg hij]
    apply identity_data_off
    intro a ha hcon
    have hcon2 : i * n + j = a * n + a := hcon
    have h1 : (i * n + j) / n = i := flat_idx_div hj
    have h2 : (i * n + j) % n = j := flat_idx_mod hj
    have h3 : (a * n + a) / n = a := flat_idx_div ha
    have h4 : (a * n + a) % n = a := flat_idx_mod ha
    rw [hcon2] at h1 h2
    omega

/-- The cofactor recursion only reads flat positions below `n * n`. -/
theorem detAux_congr (n : Nat) :
    ∀ d d' : Nat → ℚ, (∀ k, k < n * n → d k = d' k) → detAux n d = detAux n d' := by
  induction n using Nat.strong_induction_on with
  | _ n ih =>
      match n with
      | 0 => intro d d' _; rfl
      | 1 =>
          intro d d' h
          show d 0 = d' 0
          exact h 0 (by omega)
      | 2 =>
          intro d d' h
          show d 0 * d 3 - d 1 * d 2 = d' 0 * d' 3 - d' 1 * d' 2
          rw [h 0 (by omega), h 1 (by omega), h 2 (by omega), h 3 (by omega)]
      | (m + 3) =>
          intro d d' h
          show sumRange (m + 3) _ = sumRange (m + 3) _
          apply sumRange_congr
          intro i hi
          rw [h i (by nlinarith)]
          congr 1
          apply ih (m + 2) (by omega)
          intro p hp
          unfold detSub
          have hr : p / (m + 3 - 1) < m + 2 := by
            apply Nat.div_lt_of_lt_mul
            simpa using hp
          have hc : (if p % (m + 3 - 1) < i then p % (m + 3 - 1) else p % (m + 3 - 1) + 1) <
              m + 3 := by
            have : p % (m + 3 - 1) < m + 2 := Nat.mod_lt _ (by omega)
            split <;> omega
          exact h _ (flat_idx_lt (by omega) hc)

/-- The cofactor recursion evaluates to 1 on any buffer that holds the
`n × n` identity pattern. -/
theorem detAux_identity (n : Nat) :
    1 ≤ n → ∀ d : Nat → ℚ,
      (∀ i j, i < n → j < n → d (i * n + j) = if i = j then 1 else 0) →
      detAux n d = 1 := by
  induction n using Nat.strong_induction_on with
  | _ n ih =>
      match n with
      | 0 => intro h; exact absurd h (by omega)
      | 1 =>
          intro _ d hd
          show d 0 = 1
          have := hd 0 0 (by omega) (by omega)
          simpa using this
      | 2 =>
          intro _ d hd
          show d 0 * d 3 - d 1 * d 2 = 1
          have h00 := hd 0 0 (by omega) (by omega)
          have h01 := hd 0 1 (by omega) (by omega)
          have h10 := hd 1 0 (by omega) (by omega)
          have h11 := hd 1 1 (by omega) (by omega)
          simp only [Nat.zero_mul, Nat.zero_add, Nat.one_mul] at h00 h01 h10 h11
          norm_num [h00, h01, h10, h11]
      | (m + 3) =>
          intro _ d hd
          show sumRange (m + 3)
              (fun i => (if i % 2 = 0 then (1 : ℚ) else -1) * d i *
                detAux (m + 2) (detSub (m + 3) d i)) = 1
          rw [sumRange_eq_first _ _ (by omega)]
          · have hd0 : d 0 = 1 := by
              have := hd 0 0 (by omega) (by omega)
              simpa using this
            rw [hd0]
            have hsub : detAux (m + 2) (detSub (m + 3) d 0) = 1 := by
              apply ih (m + 2) (by omega) (by omega)
              intro i j hi hj
              unfold detSub
              have hdiv : (i * (m + 2) + j) / (m + 3 - 1) = i := by
                show (i * (m + 2) + j) / (m + 2) = i
                exact flat_idx_div hj
              have hmod : (i * (m + 2) + j) % (m + 3 - 1) = j := by
                show (i * (m + 2) + j) % (m + 2) = j
                exact flat_idx_mod hj
              rw [hdiv, hmod, if_neg (by omega)]
              have := hd (i + 1) (j + 1) (by omega) (by omega)
              rw [this]
              by_cases hij : i = j
              · rw [if_pos hij, if_pos (by omega)]
              · rw [if_neg hij, if_neg (by omega)]
            rw [hsub]
            norm_num
          · intro k hk hk0
            have hv := hd 0 k (by omega) (by omega)
            simp only [Nat.zero_mul, Nat.zero_add] at hv
            have hz : (if 0 = k then (1 : ℚ) else 0) = 0 := if_neg (by omega)
            rw [hv, hz]
            ring

/-- The cofactor recursion evaluates to 0 on a buffer that is zero over the
`n × n` range. -/
theorem detAux_zero (n : Nat) (d : Nat → ℚ) (hd : ∀ k, k < n * n → d k = 0) :
    detAux n d = 0 := by
  match n with
  | 0 => rfl
  | 1 =>
      show d 0 = 0
      exact hd 0 (by omega)
  | 2 =>
      show d 0 * d 3 - d 1 * d 2 = 0
      rw [hd 0 (by omega), hd 1 (by omega), hd 2 (by omega), hd 3 (by omega)]
      ring
  | (m + 3) =>
      show sumRange (m + 3)
          (fun i => (if i % 2 = 0 then (1 : ℚ) else -1) * d i *
            detAux (m + 2) (detSub (m + 3) d i)) = 0
      apply sumRange_zero_of
      intro k hk
      rw [hd k (by nlinarith)]
      ring

/-- When the pivot search fails, the reduction step only advances the
lead. -/
theorem rowEchelonStep_none (rows lead : Nat) (out : c3e_matrix)
    (h : c3e_matrix_find_pivot out lead lead = -1) :
    rowEchelonStep rows lead out = out := by
  simp [rowEchelonStep, h]

/-- A matrix with an all-zero buffer is a fixed point of the reduction loop
and reduces to itself with an all-zero buffer. -/
theorem row_echelon_zero (m : c3e_matrix) (h : ∀ k, m.data k = 0) :
    (c3e_matrix_row_echelon m).rows = m.rows ∧
    (c3e_matrix_row_echelon m).cols = m.cols ∧
    ∀ k, (c3e_matrix_row_echelon m).data k = 0 := by
  unfold c3e_matrix_row_echelon
  have base : (c3e_matrix_copy m).rows = m.rows ∧ (c3e_matrix_copy m).cols = m.cols ∧
      ∀ k, (c3e_matrix_copy m).data k = 0 := by
    refine ⟨rfl, rfl, fun k => ?_⟩
    unfold c3e_matrix_copy
    simp only
    rw [h k]
    split <;> rfl
  have main := foldRange_inv
    (fun S : c3e_matrix => S.rows = m.rows ∧ S.cols = m.cols ∧ ∀ k, S.data k = 0)
    (min m.rows m.cols) (fun lead out => rowEchelonStep m.rows lead out)
    (c3e_matrix_copy m) base ?_
  · refine ⟨main.1, main.2.1, fun k => ?_⟩
    rw [negZeroScrub_data]
    exact main.2.2 k
  · intro lead _ S hS
    have hz : c3e_matrix_find_pivot S lead lead = -1 := by
      apply findPivot_none
      intro i _ _
      unfold MATRIX_ELEM
      rw [hS.2.2]
      norm_num [pivotTol]
    show (rowEchelonStep m.rows lead S).rows = m.rows ∧
      (rowEchelonStep m.rows lead S).cols = m.cols ∧
      ∀ k, (rowEchelonStep m.rows lead S).data k = 0
    rw [rowEchelonStep_none _ _ _ hz]
    exact hS

/-- The trailing-entry count is zero on an all-zero buffer. -/
theorem non_zero_rows_zero (m : c3e_matrix) (h : ∀ k, m.data k = 0) :
    c3e_matrix_non_zero_rows m = 0 := by
  unfold c3e_matrix_non_zero_rows
  rw [foldRange_fixed]
  intro i _ t
  rw [foldRange_fixed]
  intro j _ t2
  rw [if_neg]
  intro hcon
  exact hcon.1 (h _)

/-- Claim C5: for every `n ≥ 1` the rank of the `n × n` identity matrix is
`n` and the rank of the `n × n` zero matrix is 0. -/
theorem claim_C5_rank_identity_zero (n : Nat) (hn : 1 ≤ n) :
    c3e_matrix_rank (c3e_matrix_identity n) = n ∧
    c3e_matrix_rank (c3e_matrix_zeros n n) = 0 := by
  constructor
  · have hdet1 : detAux n (c3e_matrix_identity n).data = 1 := by
      apply detAux_identity n hn
      intro i j hi hj
      exact MATRIX_ELEM_identity n i j hi hj
    have hcond : (c3e_matrix_identity n).rows = (c3e_matrix_identity n).cols ∧
        detAux (c3e_matrix_identity n).rows (c3e_matrix_identity n).data ≠ 0 := by
      refine ⟨rfl, ?_⟩
      show detAux n (c3e_matrix_identity n).data ≠ 0
      rw [hdet1]
      norm_num
    unfold c3e_matrix_rank
    rw [if_pos hcond]
    rfl
  · have hne : ¬((c3e_matrix_zeros n n).rows = (c3e_matrix_zeros n n).cols ∧
        detAux (c3e_matrix_zeros n n).rows (c3e_matrix_zeros n n).data ≠ 0) := by
      rintro ⟨-, hdet⟩
      exact hdet (detAux_zero n _ (fun k _ => rfl))
    unfold c3e_matrix_rank
    rw [if_neg hne]
    apply non_zero_rows_zero
    exact (row_echelon_zero (c3e_matrix_zeros n n) (fun _ => rfl)).2.2

/-- Claim C5 witness at `n = 3`. -/
theorem claim_C5_witness :
    c3e_matrix_rank (c3e_matrix_identity 3) = 3 ∧
    c3e_matrix_rank (c3e_matrix_zeros 3 3) = 0 :=
  claim_C5_rank_identity_zero 3 (by norm_num)

/-- Rebuilding a matrix with a pointwise-equal buffer gives the same
matrix. -/
theorem c3e_matrix_eq_of (m : c3e_matrix) (f : Nat → ℚ) (h : ∀ k, f k = m.data k) :
    c3e_matrix.mk m.rows m.cols f = m := by
  have hf : f = m.data := funext h
  rw [hf]

/-- Scaling a row by 1 changes nothing. -/
theorem multiply_row_one (m : c3e_matrix) (r : Nat) :
    c3e_matrix_multiply_row m r 1 = m := by
  unfold c3e_matrix_multiply_row
  apply c3e_matrix_eq_of
  intro k
  split <;> simp

/-- Adding 0 times another row changes nothing. -/
theorem add_row_zero (m : c3e_matrix) (r1 r2 : Nat) :
    c3e_matrix_add_row m r1 r2 0 = m := by
  unfold c3e_matrix_add_row
  apply c3e_matrix_eq_of
  intro k
  split <;> simp

/-- Swapping a row with itself changes nothing. -/
theorem swap_rows_self (m : c3e_matrix) (r : Nat) :
    c3e_matrix_swap_rows m r r = m := by
  unfold c3e_matrix_swap_rows
  rw [if_pos rfl]

/-- The pivot search stops at once on an adequate starting row. -/
theorem findPivot_immediate (m : c3e_matrix) (col row : Nat) (hrow : row < m.rows)
    (hbig : |MATRIX_ELEM m row col| > pivotTol) :
    c3e_matrix_find_pivot m col row = (row : Int) := by
  unfold c3e_matrix_find_pivot
  have hfuel : m.rows - row = (m.rows - row - 1) + 1 := by omega
  rw [hfuel]
  unfold findPivotGo
  rw [if_pos hbig]

theorem rowEchelonElim_dims (rows lead : Nat) (out : c3e_matrix) :
    (rowEchelonElim rows lead out).rows = out.rows ∧
    (rowEchelonElim rows lead out).cols = out.cols := by
  unfold rowEchelonElim
  apply foldRange_inv (fun S : c3e_matrix => S.rows = out.rows ∧ S.cols = out.cols)
  · exact ⟨rfl, rfl⟩
  · intro i _ t ht
    by_cases hi : i ≠ lead
    · show ((if i ≠ lead then c3e_matrix_add_row t i lead (-(MATRIX_ELEM t i lead))
        else t)).rows = out.rows ∧ _
      rw [if_pos hi]
      exact ht
    · show ((if i ≠ lead then c3e_matrix_add_row t i lead (-(MATRIX_ELEM t i lead))
        else t)).rows = out.rows ∧ _
      rw [if_neg hi]
      exact ht

/-- When the pivot search succeeds, the reduction step swaps, scales and
eliminates. -/
theorem rowEchelonStep_found (rows lead : Nat) (out : c3e_matrix)
    (h : ¬c3e_matrix_find_pivot out lead lead = -1) :
    rowEchelonStep rows lead out =
      rowEchelonElim rows lead
        (c3e_matrix_multiply_row
          (c3e_matrix_swap_rows out lead (c3e_matrix_find_pivot out lead lead).toNat) lead
          (1 / MATRIX_ELEM (c3e_matrix_swap_rows out lead
            (c3e_matrix_find_pivot out lead lead).toNat) lead lead)) := by
  simp [rowEchelonStep, h]

theorem rowEchelonStep_dims (rows lead : Nat) (out : c3e_matrix) :
    (rowEchelonStep rows lead out).rows = out.rows ∧
    (rowEchelonStep rows lead out).cols = out.cols := by
  by_cases hp : c3e_matrix_find_pivot out lead lead = -1
  · rw [rowEchelonStep_none _ _ _ hp]
    exact ⟨rfl, rfl⟩
  · rw [rowEchelonStep_found _ _ _ hp]
    refine ⟨?_, ?_⟩
    · rw [(rowEchelonElim_dims _ _ _).1, c3e_matrix_multiply_row_rows,
        c3e_matrix_swap_rows_rows]
    · rw [(rowEchelonElim_dims _ _ _).2, c3e_matrix_multiply_row_cols,
        c3e_matrix_swap_rows_cols]

theorem row_echelon_dims (m : c3e_matrix) :
    (c3e_matrix_row_echelon m).rows = m.rows ∧
    (c3e_matrix_row_echelon m).cols = m.cols := by
  unfold c3e_matrix_row_echelon
  have main := foldRange_inv (fun S : c3e_matrix => S.rows = m.rows ∧ S.cols = m.cols)
    (min m.rows m.cols) (fun lead out => rowEchelonStep m.rows lead out)
    (c3e_matrix_copy m) ⟨rfl, rfl⟩ ?_
  · exact ⟨main.1, main.2⟩
  · intro lead _ t ht
    show (rowEchelonStep m.rows lead t).rows = m.rows ∧
      (rowEchelonStep m.rows lead t).cols = m.cols
    rw [(rowEchelonStep_dims _ _ _).1, (rowEchelonStep_dims _ _ _).2]
    exact ht

/-- A matrix whose leading `min rows cols` columns hold the identity
pattern is left unchanged, element for element, by another reduction
pass. -/
theorem row_echelon_fixed (r : c3e_matrix)
    (h : ∀ l, l < min r.rows r.cols → ∀ i, i < r.rows →
      MATRIX_ELEM r i l = if i = l then 1 else 0) :
    (c3e_matrix_row_echelon r).rows = r.rows ∧
    (c3e_matrix_row_echelon r).cols = r.cols ∧
    ∀ i j, i < r.rows → j < r.cols →
      MATRIX_ELEM (c3e_matrix_row_echelon r) i j = MATRIX_ELEM r i j := by
  have hd := row_echelon_dims r
  refine ⟨hd.1, hd.2, ?_⟩
  unfold c3e_matrix_row_echelon
  have main : foldRange (min r.rows r.cols) (fun lead out => rowEchelonStep r.rows lead out)
      (c3e_matrix_copy r) = c3e_matrix_copy r := by
    apply foldRange_inv (fun S : c3e_matrix => S = c3e_matrix_copy r) _ _ _ rfl
    intro lead hlead t ht
    show rowEchelonStep r.rows lead t = c3e_matrix_copy r
    subst ht
    have hlr : lead < r.rows := lt_of_lt_of_le hlead (Nat.min_le_left _ _)
    have hlc : lead < r.cols := lt_of_lt_of_le hlead (Nat.min_le_right _ _)
    have helem : MATRIX_ELEM (c3e_matrix_copy r) lead lead = 1 := by
      rw [MATRIX_ELEM_copy r lead lead hlr hlc, h lead hlead lead hlr, if_pos rfl]
    have hpiv : c3e_matrix_find_pivot (c3e_matrix_copy r) lead lead = (lead : Int) := by
      apply findPivot_immediate
      · exact hlr
      · rw [helem]
        norm_num [pivotTol]
    unfold rowEchelonStep
    rw [hpiv]
    rw [if_neg (by omega)]
    simp only [Int.toNat_ofNat]
    rw [swap_rows_self]
    have hscal : 1 / MATRIX_ELEM (c3e_matrix_copy r) lead lead = 1 := by
      rw [helem]
      norm_num
    rw [hscal, multiply_row_one]
    unfold rowEchelonElim
    apply foldRange_inv (fun S : c3e_matrix => S = c3e_matrix_copy r) _ _ _ rfl
    intro i hi t ht
    subst ht
    show (if i ≠ lead then
        c3e_matrix_add_row (c3e_matrix_copy r) i lead
          (-(MATRIX_ELEM (c3e_matrix_copy r) i lead))
      else c3e_matrix_copy r) = c3e_matrix_copy r
    by_cases hil : i ≠ lead
    · rw [if_pos hil]
      have hz : MATRIX_ELEM (c3e_matrix_copy r) i lead = 0 := by
        rw [MATRIX_ELEM_copy r i lead hi hlc, h lead hlead i hi, if_neg hil]
      rw [hz, neg_zero, add_row_zero]
    · rw [if_neg hil]
  rw [main]
  intro i j hi hj
  unfold MATRIX_ELEM
  rw [negZeroScrub_data]
  show (c3e_matrix_copy r).data (i * (c3e_matrix_copy r).cols + j) = _
  exact MATRIX_ELEM_copy r i j hi hj

/-- Claim C4, amended: for every matrix `A` whose reduction has the
identity pattern in its leading `min rows cols` columns, reducing a second
time returns the same dimensions and the same elements.  (The
counterexample above shows the restriction is needed: a below-tolerance
entry in a skipped column can be magnified above the tolerance by the
elimination of a later column, and the second pass then reduces it.) -/
theorem claim_C4_amended (A : c3e_matrix)
    (h : ∀ l, l < min A.rows A.cols → ∀ i, i < A.rows →
      MATRIX_ELEM (c3e_matrix_row_echelon A) i l = if i = l then 1 else 0) :
    (c3e_matrix_row_echelon (c3e_matrix_row_echelon A)).rows =
      (c3e_matrix_row_echelon A).rows ∧
    (c3e_matrix_row_echelon (c3e_matrix_row_echelon A)).cols =
      (c3e_matrix_row_echelon A).cols ∧
    ∀ i j, i < A.rows → j < A.cols →
      MATRIX_ELEM (c3e_matrix_row_echelon (c3e_matrix_row_echelon A)) i j =
        MATRIX_ELEM (c3e_matrix_row_echelon A) i j := by
  have hd := row_echelon_dims A
  have hfix := row_echelon_fixed (c3e_matrix_row_echelon A) ?_
  · refine ⟨hfix.1, hfix.2.1, fun i j hi hj => ?_⟩
    exact hfix.2.2 i j (by rw [hd.1]; exact hi) (by rw [hd.2]; exact hj)
  · intro l hl i hi
    apply h
    · rw [hd.1, hd.2] at hl
      exact hl
    · rw [hd.1] at hi
      exact hi

/-- A matrix whose reduction is the identity, witnessing the amended
claim C4. -/
def echWitnessA : c3e_matrix :=
  ⟨2, 2, fun k => if k = 0 then 2 else if k = 1 then 1 else if k = 2 then 1 else 1⟩

/-- Claim C4 witness: the amended idempotence applied to
`[[2,1],[1,1]]`. -/
theorem claim_C4_witness :
    (c3e_matrix_row_echelon (c3e_matrix_row_echelon echWitnessA)).rows =
      (c3e_matrix_row_echelon echWitnessA).rows ∧
    (c3e_matrix_row_echelon (c3e_matrix_row_echelon echWitnessA)).cols =
      (c3e_matrix_row_echelon echWitnessA).cols ∧
    ∀ i j, i < echWitnessA.rows → j < echWitnessA.cols →
      MATRIX_ELEM (c3e_matrix_row_echelon (c3e_matrix_row_echelon echWitnessA)) i j =
        MATRIX_ELEM (c3e_matrix_row_echelon echWitnessA) i j :=
  claim_C4_amended echWitnessA (by with_unfolding_all decide)

/-- The first `t` iterations of the Doolittle outer loop. -/
def luPartial (A : c3e_matrix) (n t : Nat) : (Nat → Nat → ℚ) × (Nat → Nat → ℚ) :=
  foldRange t (luStep A n) (fun _ _ => 0, fun _ _ => 0)

theorem luPartial_succ (A : c3e_matrix) (n t : Nat) :
    luPartial A n (t + 1) = luStep A n t (luPartial A n t) := rfl

theorem luIter_to_luPartial (A : c3e_matrix) (n : Nat) : luIter A n = luPartial A n n := rfl

theorem luStep_u_eval (A : c3e_matrix) (n i : Nat) (lu : (Nat → Nat → ℚ) × (Nat → Nat → ℚ))
    (r k : Nat) :
    (luStep A n i lu).2 r k =
      if r = i ∧ k < n then MATRIX_ELEM A r k - sumRange i (fun j => lu.1 r j * lu.2 j k)
      else lu.2 r k := rfl

theorem luStep_l_eval (A : c3e_matrix) (n i : Nat) (lu : (Nat → Nat → ℚ) × (Nat → Nat → ℚ))
    (r k : Nat) :
    (luStep A n i lu).1 r k =
      if k = i ∧ i + 1 ≤ r ∧ r < n then
        (MATRIX_ELEM A r k - sumRange i (fun j => lu.1 r j * lu.2 j k)) /
          (luStep A n i lu).2 i i
      else if r = i ∧ k = i then 1
      else lu.1 r k := rfl

/-- Later iterations do not touch already-written rows of `upper`. -/
theorem luPartial_u_frozen (A : c3e_matrix) (n : Nat) :
    ∀ t2 t1, t1 ≤ t2 → ∀ r k, r < t1 →
      (luPartial A n t2).2 r k = (luPartial A n t1).2 r k := by
  intro t2
  induction t2 with
  | zero =>
      intro t1 h r k _
      have h0 : t1 = 0 := by omega
      rw [h0]
  | succ s ih =>
      intro t1 h r k hr
      rcases Nat.eq_or_lt_of_le h with he | hl
      · rw [he]
      · rw [luPartial_succ, luStep_u_eval, if_neg (by omega), ih t1 (by omega) r k hr]

/-- Later iterations do not touch already-written columns of `lower`. -/
theorem luPartial_l_frozen (A : c3e_matrix) (n : Nat) :
    ∀ t2 t1, t1 ≤ t2 → ∀ r k, k < t1 →
      (luPartial A n t2).1 r k = (luPartial A n t1).1 r k := by
  intro t2
  induction t2 with
  | zero =>
      intro t1 h r k _
      have h0 : t1 = 0 := by omega
      rw [h0]
  | succ s ih =>
      intro t1 h r k hk
      rcases Nat.eq_or_lt_of_le h with he | hl
      · rw [he]
      · rw [luPartial_succ, luStep_l_eval, if_neg (by omega), if_neg (by omega),
          ih t1 (by omega) r k hk]

/-- Rows of `upper` not yet processed still hold their `calloc` zeros. -/
theorem luPartial_u_zero (A : c3e_matrix) (n : Nat) :
    ∀ t r k, t ≤ r → (luPartial A n t).2 r k = 0 := by
  intro t
  induction t with
  | zero => intro r k _; rfl
  | succ s ih =>
      intro r k h
      rw [luPartial_succ, luStep_u_eval, if_neg (by omega), ih r k (by omega)]

/-- Columns of `upper` beyond the matrix side are never written. -/
theorem luPartial_u_zero_col (A : c3e_matrix) (n : Nat) :
    ∀ t r k, n ≤ k → (luPartial A n t).2 r k = 0 := by
  intro t
  induction t with
  | zero => intro r k _; rfl
  | succ s ih =>
      intro r k h
      rw [luPartial_succ, luStep_u_eval, if_neg (by omega), ih r k h]

/-- The strictly-upper part of `lower` is never written. -/
theorem luPartial_l_upper (A : c3e_matrix) (n : Nat) :
    ∀ t r k, r < k → (luPartial A n t).1 r k = 0 := by
  intro t
  induction t with
  | zero => intro r k _; rfl
  | succ s ih =>
      intro r k h
      rw [luPartial_succ, luStep_l_eval, if_neg (by omega), if_neg (by omega), ih r k h]

/-- Entries of `lower` outside the `n × n` range are never written. -/
theorem luPartial_l_outside (A : c3e_matrix) (n : Nat) :
    ∀ t, t ≤ n → ∀ r k, n ≤ r ∨ n ≤ k → (luPartial A n t).1 r k = 0 := by
  intro t
  induction t with
  | zero => intro _ r k _; rfl
  | succ s ih =>
      intro h r k hout
      rw [luPartial_succ, luStep_l_eval, if_neg (by omega), if_neg (by omega),
        ih (by omega) r k hout]

/-- Final value of an in-range `upper` entry: the Doolittle row formula over
the final tables. -/
theorem lu_u_final (A : c3e_matrix) (n r k : Nat) (hr : r < n) (hk : k < n) :
    (luIter A n).2 r k =
      MATRIX_ELEM A r k -
        sumRange r (fun j => (luIter A n).1 r j * (luIter A n).2 j k) := by
  rw [luIter_to_luPartial]
  rw [luPartial_u_frozen A n n (r + 1) (by omega) r k (by omega), luPartial_succ,
    luStep_u_eval, if_pos ⟨rfl, hk⟩]
  congr 1
  apply sumRange_congr
  intro j hj
  rw [luPartial_l_frozen A n n r (by omega) r j hj,
    luPartial_u_frozen A n n r (by omega) j k hj]

/-- Final value of an in-range strictly-lower `lower` entry: the Doolittle
column formula over the final tables. -/
theorem lu_l_final (A : c3e_matrix) (n r k : Nat) (hk : k < r) (hr : r < n) :
    (luIter A n).1 r k =
      (MATRIX_ELEM A r k -
          sumRange k (fun j => (luIter A n).1 r j * (luIter A n).2 j k)) /
        (luIter A n).2 k k := by
  rw [luIter_to_luPartial]
  rw [luPartial_l_frozen A n n (k + 1) (by omega) r k (by omega), luPartial_succ,
    luStep_l_eval, if_pos ⟨rfl, by omega, hr⟩]
  have hdiv : (luStep A n k (luPartial A n k)).2 k k = (luPartial A n n).2 k k := by
    rw [← luPartial_succ, luPartial_u_frozen A n n (k + 1) (by omega) k k (by omega)]
  rw [hdiv]
  congr 2
  apply sumRange_congr
  intro j hj
  rw [luPartial_l_frozen A n n k (by omega) r j hj,
    luPartial_u_frozen A n n k (by omega) j k hj]

/-- Final diagonal of `lower`: always 1 on the processed range. -/
theorem lu_l_diag (A : c3e_matrix) (n k : Nat) (hk : k < n) :
    (luIter A n).1 k k = 1 := by
  rw [luIter_to_luPartial]
  rw [luPartial_l_frozen A n n (k + 1) (by omega) k k (by omega), luPartial_succ,
    luStep_l_eval, if_neg (by omega), if_pos ⟨rfl, rfl⟩]

theorem sumRange_drop_tail (a : Nat) (f : Nat → ℚ) :
    ∀ b, a ≤ b → (∀ j, a ≤ j → j < b → f j = 0) → sumRange b f = sumRange a f := by
  intro b
  induction b with
  | zero =>
      intro hab _
      have h0 : a = 0 := by omega
      rw [h0]
  | succ s ih =>
      intro hab h
      rcases Nat.eq_or_lt_of_le hab with he | hl
      · rw [he]
      · rw [sumRange_succ, h s (by omega) (by omega), add_zero,
          ih (by omega) (fun j hj1 hj2 => h j hj1 (by omega))]

/-- With every pivot nonzero, the strictly-lower entries of the computed
`upper` vanish (exact arithmetic). -/
theorem lu_u_lower_zero (A : c3e_matrix) (n : Nat)
    (hpiv : ∀ i, i < n → (luIter A n).2 i i ≠ 0) :
    ∀ i, i < n → ∀ k, k < i → (luIter A n).2 i k = 0 := by
  intro i
  induction i using Nat.strong_induction_on with
  | _ i ih =>
      intro hi k hk
      have hkn : k < n := by omega
      rw [lu_u_final A n i k hi hkn]
      have htail :
          sumRange i (fun j => (luIter A n).1 i j * (luIter A n).2 j k) =
          sumRange (k + 1) (fun j => (luIter A n).1 i j * (luIter A n).2 j k) := by
        apply sumRange_drop_tail (k + 1) _ i (by omega)
        intro j hj1 hj2
        rw [ih j hj2 (by omega) k (by omega)]
        ring
      have hfk : (luIter A n).1 i k * (luIter A n).2 k k =
          MATRIX_ELEM A i k -
            sumRange k (fun j => (luIter A n).1 i j * (luIter A n).2 j k) := by
        rw [lu_l_final A n i k hk (by omega)]
        exact div_mul_cancel₀ _ (hpiv k hkn)
      rw [htail, sumRange_succ, hfk]
      ring

/-- The product of the computed factors reconstructs the matrix entrywise
(exact arithmetic; no pivot condition is needed for this part). -/
theorem lu_product (A : c3e_matrix) (n : Nat) :
    ∀ i k, i < n → k < n →
      sumRange n (fun j => (luIter A n).1 i j * (luIter A n).2 j k) =
        MATRIX_ELEM A i k := by
  intro i k hi hk
  have hdrop :
      sumRange n (fun j => (luIter A n).1 i j * (luIter A n).2 j k) =
      sumRange (i + 1) (fun j => (luIter A n).1 i j * (luIter A n).2 j k) := by
    apply sumRange_drop_tail (i + 1) _ n (by omega)
    intro j hj1 hj2
    rw [luIter_to_luPartial, luPartial_l_upper A n n i j (by omega)]
    ring
  rw [hdrop, sumRange_succ, lu_l_diag A n i hi, one_mul, lu_u_final A n i k hi hk]
  ring

theorem MATRIX_ELEM_luPair_a (A : c3e_matrix) (r k : Nat) (hk : k < A.rows) :
    MATRIX_ELEM (luPair A).a r k = (luIter A A.rows).1 r k := by
  unfold luPair MATRIX_ELEM
  simp only
  rw [flat_idx_div hk, flat_idx_mod hk]

theorem MATRIX_ELEM_luPair_b (A : c3e_matrix) (r k : Nat) (hk : k < A.rows) :
    MATRIX_ELEM (luPair A).b r k = (luIter A A.rows).2 r k := by
  unfold luPair MATRIX_ELEM
  simp only
  rw [flat_idx_div hk, flat_idx_mod hk]

/-- Two matrices of equal dimensions and equal in-range elements are
all-close (each difference is zero, below the positive tolerance). -/
theorem all_close_of_eq (m s : c3e_matrix) (hr : m.rows = s.rows) (hc : m.cols = s.cols)
    (h : ∀ i j, i < m.rows → j < m.cols → MATRIX_ELEM m i j = MATRIX_ELEM s i j) :
    c3e_matrix_all_close m s = true := by
  unfold c3e_matrix_all_close
  rw [if_pos ⟨hr, hc⟩, allRange_true_iff]
  intro i hi
  rw [allRange_true_iff]
  intro j hj
  have heq := h i j hi hj
  rw [heq]
  have htol : 0 ≤ allCloseTol (MATRIX_ELEM s i j) := by
    unfold allCloseTol
    have h1 : (0 : ℚ) ≤ 1 / 10 ^ 8 := by norm_num
    have h2 : (0 : ℚ) ≤ 1 / 10 ^ 5 * |MATRIX_ELEM s i j| := by positivity
    linarith
  have hpos : ¬(|MATRIX_ELEM s i j - MATRIX_ELEM s i j| >
      allCloseTol (MATRIX_ELEM s i j)) := by
    rw [sub_self, abs_zero]
    exact not_lt.mpr htol
  rw [decide_eq_false hpos]
  rfl

/-- Claim C2, amended: for every square matrix whose computed pivots
`U[i][i]` are all nonzero, the Doolittle pair has `L` unit lower
triangular, `U` upper triangular, and `L * U` all-close to the input.  (On
a nonsingular input with a zero leading pivot, such as the counterexample
above, the division by the zero pivot pollutes `U` below the diagonal and
the claim as stated fails.) -/
theorem claim_C2_amended (n : Nat) (A : c3e_matrix) (hr : A.rows = n) (hc : A.cols = n)
    (hpiv : ∀ i, i < n → MATRIX_ELEM (luPair A).b i i ≠ 0) :
    c3e_matrix_lu_decomp A = some (luPair A) ∧
    (∀ i, i < n → MATRIX_ELEM (luPair A).a i i = 1) ∧
    (∀ i j, i < j → j < n → MATRIX_ELEM (luPair A).a i j = 0) ∧
    (∀ i j, j < i → i < n → MATRIX_ELEM (luPair A).b i j = 0) ∧
    (∃ P, c3e_matrix_mul (luPair A).a (luPair A).b = some P ∧
      c3e_matrix_all_close P A = true) := by
  subst hr
  have hpiv2 : ∀ i, i < A.rows → (luIter A A.rows).2 i i ≠ 0 := by
    intro i hi
    rw [← MATRIX_ELEM_luPair_b A i i hi]
    exact hpiv i hi
  refine ⟨?_, ?_, ?_, ?_, ?_⟩
  · unfold c3e_matrix_lu_decomp
    rw [if_pos hc.symm]
  · intro i hi
    rw [MATRIX_ELEM_luPair_a A i i hi]
    exact lu_l_diag A A.rows i hi
  · intro i j hij hj
    rw [MATRIX_ELEM_luPair_a A i j hj, luIter_to_luPartial]
    exact luPartial_l_upper A A.rows A.rows i j hij
  · intro i j hji hi
    rw [MATRIX_ELEM_luPair_b A i j (by omega)]
    exact lu_u_lower_zero A A.rows hpiv2 i hi j hji
  · refine ⟨⟨(luPair A).a.rows, (luPair A).b.cols, fun p =>
      if p < (luPair A).a.rows * (luPair A).b.cols then
        sumRange (luPair A).a.cols (fun k =>
          MATRIX_ELEM (luPair A).a (p / (luPair A).b.cols) k *
            MATRIX_ELEM (luPair A).b k (p % (luPair A).b.cols))
      else 0⟩, ?_, ?_⟩
    · unfold c3e_matrix_mul
      rw [if_pos (show (luPair A).a.cols = (luPair A).b.rows from rfl)]
    · refine all_close_of_eq _ _ rfl hc.symm ?_
      intro i j hi hj
      have hi2 : i < A.rows := hi
      have hj2 : j < A.rows := hj
      show (if i * A.rows + j < A.rows * A.rows then
          sumRange A.rows (fun k =>
            MATRIX_ELEM (luPair A).a ((i * A.rows + j) / A.rows) k *
              MATRIX_ELEM (luPair A).b k ((i * A.rows + j) % A.rows))
        else 0) = MATRIX_ELEM A i j
      rw [if_pos (flat_idx_lt hi2 hj2), flat_idx_div hj2, flat_idx_mod hj2]
      have hsum :
          sumRange A.rows (fun k =>
            MATRIX_ELEM (luPair A).a i k * MATRIX_ELEM (luPair A).b k j) =
          sumRange A.rows (fun k =>
            (luIter A A.rows).1 i k * (luIter A A.rows).2 k j) := by
        apply sumRange_congr
        intro k hk
        rw [MATRIX_ELEM_luPair_a A i k hk, MATRIX_ELEM_luPair_b A k j hj2]
      rw [hsum, lu_product A A.rows i j hi2 hj2]

/-- A square matrix with nonzero leading pivots, witnessing the amended
claim C2. -/
def luWitnessA : c3e_matrix :=
  ⟨2, 2, fun k => if k = 0 then 2 else if k = 1 then 1 else if k = 2 then 4 else 5⟩

/-- Claim C2 witness: the amended decomposition property applied to
`[[2,1],[4,5]]`, whose pivots are 2 and 3. -/
theorem claim_C2_witness :
    c3e_matrix_lu_decomp luWitnessA = some (luPair luWitnessA) ∧
    (∀ i, i < 2 → MATRIX_ELEM (luPair luWitnessA).a i i = 1) ∧
    (∀ i j, i < j → j < 2 → MATRIX_ELEM (luPair luWitnessA).a i j = 0) ∧
    (∀ i j, j < i → i < 2 → MATRIX_ELEM (luPair luWitnessA).b i j = 0) ∧
    (∃ P, c3e_matrix_mul (luPair luWitnessA).a (luPair luWitnessA).b = some P ∧
      c3e_matrix_all_close P luWitnessA = true) :=
  claim_C2_amended 2 luWitnessA rfl rfl (by with_unfolding_all decide)

theorem sumRange_add (n : Nat) (f g : Nat → ℚ) :
    sumRange n (fun k => f k + g k) = sumRange n f + sumRange n g := by
  induction n with
  | zero => simp [sumRange, foldRange]
  | succ m ih =>
      rw [sumRange_succ, sumRange_succ, sumRange_succ, ih]
      ring

theorem sumRange_mul_left (n : Nat) (c : ℚ) (f : Nat → ℚ) :
    sumRange n (fun k => c * f k) = c * sumRange n f := by
  induction n with
  | zero => simp [sumRange, foldRange]
  | succ m ih =>
      rw [sumRange_succ, sumRange_succ, ih]
      ring

theorem sumRange_mul_right (n : Nat) (f : Nat → ℚ) (c : ℚ) :
    sumRange n (fun k => f k * c) = sumRange n f * c := by
  induction n with
  | zero => simp [sumRange, foldRange]
  | succ m ih =>
      rw [sumRange_succ, sumRange_succ, ih]
      ring

theorem sumRange_delta (n i : Nat) (f : Nat → ℚ) (hi : i < n) :
    sumRange n (fun k => (if i = k then 1 else 0) * f k) = f i := by
  induction n with
  | zero => omega
  | succ m ih =>
      rw [sumRange_succ]
      by_cases him : i = m
      · subst him
        rw [if_pos rfl, one_mul, sumRange_zero_of, zero_add]
        intro k hk
        rw [if_neg (by omega), zero_mul]
      · rw [ih (by omega), if_neg him, zero_mul, add_zero]

theorem sumRange_delta_right (n j : Nat) (f : Nat → ℚ) (hj : j < n) :
    sumRange n (fun k => f k * (if k = j then 1 else 0)) = f j := by
  induction n with
  | zero => omega
  | succ m ih =>
      rw [sumRange_succ]
      by_cases hjm : j = m
      · subst hjm
        rw [if_pos rfl, mul_one, sumRange_zero_of, zero_add]
        intro k hk
        rw [if_neg (by omega), mul_zero]
      · rw [ih (by omega), if_neg (by omega), mul_zero, add_zero]

/-- Every row of `M` is a linear combination of the rows of `M0` (same
shape); the coefficient table `P` is the carrier of the row-operation
argument below. -/
def rowsSpan (M M0 : c3e_matrix) : Prop :=
  M.rows = M0.rows ∧ M.cols = M0.cols ∧
  ∃ P : Nat → Nat → ℚ, ∀ i, i < M.rows → ∀ j, j < M.cols →
    MATRIX_ELEM M i j = sumRange M.rows (fun k => P i k * MATRIX_ELEM M0 k j)

theorem rowsSpan_refl (M : c3e_matrix) : rowsSpan M M := by
  refine ⟨rfl, rfl, fun i k => if i = k then 1 else 0, fun i hi j hj => ?_⟩
  rw [sumRange_delta M.rows i _ hi]

theorem rowsSpan_swap (M M0 : c3e_matrix) (h : rowsSpan M M0) (r1 r2 : Nat)
    (hr1 : r1 < M.rows) (hr2 : r2 < M.rows) :
    rowsSpan (c3e_matrix_swap_rows M r1 r2) M0 := by
  obtain ⟨hrows, hcols, P, hP⟩ := h
  refine ⟨(c3e_matrix_swap_rows_rows M r1 r2).trans hrows,
    (c3e_matrix_swap_rows_cols M r1 r2).trans hcols,
    fun i k => P (swapIdx r1 r2 i) k, fun i hi j hj => ?_⟩
  have hi2 : i < M.rows := by rwa [c3e_matrix_swap_rows_rows] at hi
  have hj2 : j < M.cols := by rwa [c3e_matrix_swap_rows_cols] at hj
  rw [MATRIX_ELEM_swap_rows M r1 r2 i j hj2]
  have hsw : swapIdx r1 r2 i < M.rows := by
    unfold swapIdx
    split
    · exact hr2
    · split
      · exact hr1
      · exact hi2
  rw [hP (swapIdx r1 r2 i) hsw j hj2]
  rw [c3e_matrix_swap_rows_rows]

theorem rowsSpan_multiply (M M0 : c3e_matrix) (h : rowsSpan M M0) (r : Nat) (x : ℚ) :
    rowsSpan (c3e_matrix_multiply_row M r x) M0 := by
  obtain ⟨hrows, hcols, P, hP⟩ := h
  refine ⟨hrows, hcols, fun i k => if i = r then P i k * x else P i k,
    fun i hi j hj => ?_⟩
  have hi2 : i < M.rows := hi
  have hj2 : j < M.cols := hj
  rw [MATRIX_ELEM_multiply_row M r x i j hj2]
  show (if i = r then MATRIX_ELEM M i j * x else MATRIX_ELEM M i j) = _
  by_cases hir : i = r
  · rw [if_pos hir, hP i hi2 j hj2]
    rw [show (c3e_matrix_multiply_row M r x).rows = M.rows from rfl]
    rw [← sumRange_mul_right]
    apply sumRange_congr
    intro k hk
    show P i k * MATRIX_ELEM M0 k j * x =
      (if i = r then P i k * x else P i k) * MATRIX_ELEM M0 k j
    rw [if_pos hir]
    ring
  · rw [if_neg hir, hP i hi2 j hj2]
    apply sumRange_congr
    intro k hk
    show P i k * MATRIX_ELEM M0 k j =
      (if i = r then P i k * x else P i k) * MATRIX_ELEM M0 k j
    rw [if_neg hir]

theorem rowsSpan_add_row (M M0 : c3e_matrix) (h : rowsSpan M M0) (r1 r2 : Nat)
    (hr2 : r2 < M.rows) (s : ℚ) :
    rowsSpan (c3e_matrix_add_row M r1 r2 s) M0 := by
  obtain ⟨hrows, hcols, P, hP⟩ := h
  refine ⟨hrows, hcols, fun i k => if i = r1 then P i k + s * P r2 k else P i k,
    fun i hi j hj => ?_⟩
  have hi2 : i < M.rows := hi
  have hj2 : j < M.cols := hj
  rw [MATRIX_ELEM_add_row M r1 r2 s i j hj2]
  show (if i = r1 then MATRIX_ELEM M i j + s * MATRIX_ELEM M r2 j else MATRIX_ELEM M i j) = _
  by_cases hir : i = r1
  · rw [if_pos hir, hP i hi2 j hj2, hP r2 hr2 j hj2]
    rw [show (c3e_matrix_add_row M r1 r2 s).rows = M.rows from rfl]
    rw [← sumRange_mul_left M.rows s, ← sumRange_add]
    apply sumRange_congr
    intro k hk
    show P i k * MATRIX_ELEM M0 k j + s * (P r2 k * MATRIX_ELEM M0 k j) =
      (if i = r1 then P i k + s * P r2 k else P i k) * MATRIX_ELEM M0 k j
    rw [if_pos hir]
    ring
  · rw [if_neg hir, hP i hi2 j hj2]
    apply sumRange_congr
    intro k hk
    show P i k * MATRIX_ELEM M0 k j =
      (if i = r1 then P i k + s * P r2 k else P i k) * MATRIX_ELEM M0 k j
    rw [if_neg hir]

theorem rowsSpan_elim (M0 : c3e_matrix) (rows lead : Nat) (out : c3e_matrix)
    (h : rowsSpan out M0) (hlead : lead < out.rows) :
    rowsSpan (rowEchelonElim rows lead out) M0 := by
  unfold rowEchelonElim
  have main := foldRange_inv
    (fun S : c3e_matrix => rowsSpan S M0 ∧ S.rows = out.rows) rows
    (fun i acc =>
      if i ≠ lead then c3e_matrix_add_row acc i lead (-(MATRIX_ELEM acc i lead)) else acc)
    out ⟨h, rfl⟩ ?_
  · exact main.1
  · intro i _ t ht
    show rowsSpan (if i ≠ lead then c3e_matrix_add_row t i lead (-(MATRIX_ELEM t i lead))
        else t) M0 ∧
      (if i ≠ lead then c3e_matrix_add_row t i lead (-(MATRIX_ELEM t i lead))
        else t).rows = out.rows
    by_cases hil : i ≠ lead
    · rw [if_pos hil]
      exact ⟨rowsSpan_add_row t M0 ht.1 i lead (by rw [ht.2]; exact hlead) _,
        by rw [c3e_matrix_add_row_rows]; exact ht.2⟩
    · rw [if_neg hil]
      exact ht

theorem rowsSpan_step (M0 : c3e_matrix) (rows lead : Nat) (out : c3e_matrix)
    (h : rowsSpan out M0) (hlead : lead < out.rows) :
    rowsSpan (rowEchelonStep rows lead out) M0 := by
  by_cases hp : c3e_matrix_find_pivot out lead lead = -1
  · rw [rowEchelonStep_none _ _ _ hp]
    exact h
  · rw [rowEchelonStep_found _ _ _ hp]
    have hfound := findPivot_found out lead lead hp
    apply rowsSpan_elim
    · apply rowsSpan_multiply
      exact rowsSpan_swap out M0 h lead _ hlead hfound.2.1
    · rw [c3e_matrix_multiply_row_rows, c3e_matrix_swap_rows_rows]
      exact hlead

/-- The reduced matrix is made of linear combinations of the rows of the
input. -/
theorem rowsSpan_row_echelon (m : c3e_matrix) : rowsSpan (c3e_matrix_row_echelon m) m := by
  unfold c3e_matrix_row_echelon
  have hcopy : rowsSpan (c3e_matrix_copy m) m := by
    refine ⟨rfl, rfl, fun i k => if i = k then 1 else 0, fun i hi j hj => ?_⟩
    have hi2 : i < m.rows := hi
    have hj2 : j < m.cols := hj
    rw [MATRIX_ELEM_copy m i j hi2 hj2]
    show MATRIX_ELEM m i j =
      sumRange m.rows (fun k => (if i = k then 1 else 0) * MATRIX_ELEM m k j)
    exact (sumRange_delta m.rows i (fun k => MATRIX_ELEM m k j) hi2).symm
  have main := foldRange_inv
    (fun S : c3e_matrix => rowsSpan S m ∧ S.rows = m.rows) (min m.rows m.cols)
    (fun lead out => rowEchelonStep m.rows lead out) (c3e_matrix_copy m) ⟨hcopy, rfl⟩ ?_
  · obtain ⟨⟨hrows, hcols, P, hP⟩, -⟩ := main
    refine ⟨hrows, hcols, P, fun i hi j hj => ?_⟩
    have helem : MATRIX_ELEM (negZeroScrub
        (foldRange (min m.rows m.cols) (fun lead out => rowEchelonStep m.rows lead out)
          (c3e_matrix_copy m))) i j =
        MATRIX_ELEM (foldRange (min m.rows m.cols)
          (fun lead out => rowEchelonStep m.rows lead out) (c3e_matrix_copy m)) i j := by
      unfold MATRIX_ELEM
      rw [negZeroScrub_data]
      rfl
    rw [helem]
    exact hP i hi j hj
  · intro lead hlead t ht
    refine ⟨?_, ?_⟩
    · show rowsSpan (rowEchelonStep m.rows lead t) m
      apply rowsSpan_step m m.rows lead t ht.1
      rw [ht.2]
      exact lt_of_lt_of_le hlead (Nat.min_le_left _ _)
    · show (rowEchelonStep m.rows lead t).rows = m.rows
      rw [(rowEchelonStep_dims _ _ _).1, ht.2]

theorem rowWrites_at (i oc off : Nat) (src : Nat → Nat → ℚ) (acc : Nat → ℚ)
    (C : Nat) (hoc : C + off ≤ oc) :
    ∀ j, j < C →
      foldRange C (fun j acc => upd acc (i * oc + (j + off)) (src i j)) acc
        (i * oc + (j + off)) = src i j := by
  induction C with
  | zero => intro j hj; exact absurd hj (by omega)
  | succ C ih =>
    intro j hj
    rw [foldRange_succ]
    by_cases hjc : j = C
    · subst hjc
      exact upd_same _ _ _
    · rw [upd_other]
      · exact ih (by omega) j (by omega)
      · omega

theorem rowWrites_out (i oc off : Nat) (src : Nat → Nat → ℚ) (acc : Nat → ℚ)
    (C : Nat) (p : Nat) (hp : ∀ j, j < C → p ≠ i * oc + (j + off)) :
    foldRange C (fun j acc => upd acc (i * oc + (j + off)) (src i j)) acc p = acc p := by
  induction C with
  | zero => rfl
  | succ C ih =>
    rw [foldRange_succ, upd_other]
    · exact ih (fun j hj => hp j (by omega))
    · exact hp C (by omega)

theorem writeBlock_at (R C oc off : Nat) (src : Nat → Nat → ℚ) (d : Nat → ℚ)
    (hoc : C + off ≤ oc) :
    ∀ i j, i < R → j < C → writeBlock R C oc off src d (i * oc + (j + off)) = src i j := by
  unfold writeBlock
  induction R with
  | zero => intro i j hi _; exact absurd hi (by omega)
  | succ R ih =>
    intro i j hi hj
    rw [foldRange_succ]
    by_cases hiR : i = R
    · subst hiR
      exact rowWrites_at i oc off src _ C hoc j hj
    · rw [rowWrites_out]
      · exact ih i j (by omega) hj
      · intro j' hj' heq
        have h1 : (i * oc + (j + off)) / oc = i := flat_idx_div (by omega)
        have h2 : (R * oc + (j' + off)) / oc = R := flat_idx_div (by omega)
        rw [heq, h2] at h1
        exact hiR h1.symm

theorem writeBlock_out (R C oc off : Nat) (src : Nat → Nat → ℚ) (d : Nat → ℚ)
    (p : Nat) (hp : ∀ i j, i < R → j < C → p ≠ i * oc + (j + off)) :
    writeBlock R C oc off src d p = d p := by
  unfold writeBlock
  induction R with
  | zero => rfl
  | succ R ih =>
    rw [foldRange_succ, rowWrites_out]
    · exact ih (fun i j hi hj => hp i j (by omega) hj)
    · exact fun j hj => hp R j (by omega) hj

/-- The augmented buffer `[A | I]` built inside `c3e_matrix_inverse` before
the reduction. -/
def invAug (A : c3e_matrix) : c3e_matrix :=
  ⟨A.rows, A.cols + A.rows,
    writeBlock A.rows A.rows (A.cols + A.rows) A.rows
      (fun i j => MATRIX_ELEM (c3e_matrix_identity A.rows) i j)
      (writeBlock A.rows A.cols (A.cols + A.rows) 0 (fun i j => MATRIX_ELEM A i j)
        (fun _ => 0))⟩

theorem append_identity_eq (A : c3e_matrix) :
    c3e_matrix_append A (c3e_matrix_identity A.rows) 0 = some (invAug A) := by
  unfold c3e_matrix_append invAug
  rw [if_pos rfl, if_pos (show A.rows = (c3e_matrix_identity A.rows).rows from rfl)]
  rfl

theorem invEchelon_eq (A : c3e_matrix) :
    invEchelon A = c3e_matrix_row_echelon (invAug A) := by
  unfold invEchelon
  rw [append_identity_eq]

theorem invAug_left (A : c3e_matrix) (hc : A.cols = A.rows) (i j : Nat)
    (hi : i < A.rows) (hj : j < A.cols) :
    MATRIX_ELEM (invAug A) i j = MATRIX_ELEM A i j := by
  show writeBlock A.rows A.rows (A.cols + A.rows) A.rows
      (fun i j => MATRIX_ELEM (c3e_matrix_identity A.rows) i j)
      (writeBlock A.rows A.cols (A.cols + A.rows) 0 (fun i j => MATRIX_ELEM A i j)
        (fun _ => 0)) (i * (A.cols + A.rows) + j) = MATRIX_ELEM A i j
  rw [writeBlock_out]
  · have := writeBlock_at A.rows A.cols (A.cols + A.rows) 0
      (fun i j => MATRIX_ELEM A i j) (fun _ => 0) (by omega) i j hi hj
    exact this
  · intro i2 j2 hi2 hj2 heq
    have h1 : (i * (A.cols + A.rows) + j) % (A.cols + A.rows) = j :=
      flat_idx_mod (by omega)
    have h2 : (i2 * (A.cols + A.rows) + (j2 + A.rows)) % (A.cols + A.rows) = j2 + A.rows :=
      flat_idx_mod (by omega)
    rw [heq, h2] at h1
    omega

theorem invAug_right (A : c3e_matrix) (hc : A.cols = A.rows) (i j : Nat)
    (hi : i < A.rows) (hj : j < A.rows) :
    MATRIX_ELEM (invAug A) i (A.cols + j) = if i = j then 1 else 0 := by
  show writeBlock A.rows A.rows (A.cols + A.rows) A.rows
      (fun i j => MATRIX_ELEM (c3e_matrix_identity A.rows) i j)
      (writeBlock A.rows A.cols (A.cols + A.rows) 0 (fun i j => MATRIX_ELEM A i j)
        (fun _ => 0)) (i * (A.cols + A.rows) + (A.cols + j)) = if i = j then 1 else 0
  have hpos : i * (A.cols + A.rows) + (A.cols + j) =
      i * (A.cols + A.rows) + (j + A.rows) := by omega
  rw [hpos,
    writeBlock_at A.rows A.rows (A.cols + A.rows) A.rows
      (fun i j => MATRIX_ELEM (c3e_matrix_identity A.rows) i j)
      (writeBlock A.rows A.cols (A.cols + A.rows) 0 (fun i j => MATRIX_ELEM A i j)
        (fun _ => 0)) (by omega) i j hi hj]
  exact MATRIX_ELEM_identity A.rows i j hi hj

theorem sumRange_eq_fin_sum (n : Nat) (f : Nat → ℚ) :
    sumRange n f = ∑ k : Fin n, f k.val := by
  rw [sumRange_eq_finset_sum, Fin.sum_univ_eq_sum_range f n]

/-- Over a commutative ring a one-sided inverse of a square matrix is
two-sided: transported to the row-major sums of the embedding. -/
theorem left_inverse_flip (n : Nat) (Af Pf : Nat → Nat → ℚ)
    (h : ∀ i j, i < n → j < n →
      sumRange n (fun k => Pf i k * Af k j) = (if i = j then (1 : ℚ) else 0)) :
    ∀ i j, i < n → j < n →
      sumRange n (fun k => Af i k * Pf k j) = (if i = j then (1 : ℚ) else 0) := by
  have hPA : (Matrix.of fun a b : Fin n => Pf a.val b.val) *
      (Matrix.of fun a b : Fin n => Af a.val b.val) = 1 := by
    ext a b
    rw [Matrix.mul_apply, Matrix.one_apply]
    simp only [Matrix.of_apply]
    have hh := h a.val b.val a.isLt b.isLt
    rw [sumRange_eq_fin_sum] at hh
    by_cases hab : a = b
    · rw [if_pos hab]
      rw [if_pos (congrArg Fin.val hab)] at hh
      exact hh
    · rw [if_neg hab]
      rw [if_neg (fun hv => hab (Fin.val_injective hv))] at hh
      exact hh
  have hAP : (Matrix.of fun a b : Fin n => Af a.val b.val) *
      (Matrix.of fun a b : Fin n => Pf a.val b.val) = 1 :=
    Matrix.mul_eq_one_comm.mp hPA
  intro i j hi hj
  have happ : ((Matrix.of fun a b : Fin n => Af a.val b.val) *
      (Matrix.of fun a b : Fin n => Pf a.val b.val)) ⟨i, hi⟩ ⟨j, hj⟩ =
      (1 : Matrix (Fin n) (Fin n) ℚ) ⟨i, hi⟩ ⟨j, hj⟩ := by rw [hAP]
  rw [Matrix.mul_apply, Matrix.one_apply] at happ
  simp only [Matrix.of_apply] at happ
  rw [sumRange_eq_fin_sum]
  by_cases hij : (⟨i, hi⟩ : Fin n) = ⟨j, hj⟩
  · have hv : i = j := congrArg Fin.val hij
    rw [if_pos hv]
    rw [if_pos hij] at happ
    exact happ
  · have hv : i ≠ j := fun hh2 => hij (by cases hh2; rfl)
    rw [if_neg hv]
    rw [if_neg hij] at happ
    exact happ

/-- The matrix returned by `c3e_matrix_inverse` once the two assertions
pass: the right half of the reduced augmented matrix. -/
def invMat (A : c3e_matrix) : c3e_matrix :=
  ⟨A.rows, A.rows, fun p =>
    if p < A.rows * A.rows then
      (invEchelon A).data ((p / A.rows) * (2 * A.rows) + A.rows + p % A.rows)
    else 0⟩

theorem inverse_eq_invMat (A : c3e_matrix) (hrc : A.rows = A.cols)
    (hdet : detAux A.rows A.data ≠ 0) :
    c3e_matrix_inverse A = some (invMat A) := by
  unfold c3e_matrix_inverse invMat
  rw [if_pos hrc, if_neg hdet]

theorem invMat_elem (A : c3e_matrix) (hrc : A.rows = A.cols) (i j : Nat)
    (hi : i < A.rows) (hj : j < A.rows) :
    MATRIX_ELEM (invMat A) i j = MATRIX_ELEM (invEchelon A) i (A.cols + j) := by
  show (if i * A.rows + j < A.rows * A.rows then
      (invEchelon A).data ((i * A.rows + j) / A.rows * (2 * A.rows) + A.rows +
        (i * A.rows + j) % A.rows)
    else 0) = (invEchelon A).data (i * (invEchelon A).cols + (A.cols + j))
  rw [if_pos (flat_idx_lt hi hj), flat_idx_div hj, flat_idx_mod hj]
  have hEc : (invEchelon A).cols = A.cols + A.rows := by
    rw [invEchelon_eq]
    exact (row_echelon_dims (invAug A)).2
  rw [hEc, ← hrc]
  congr 1
  ring

/-- The product `A * inverse(A)` as `c3e_matrix_mul` lays it out for a
square `A`. -/
def prodMat (A : c3e_matrix) : c3e_matrix :=
  ⟨A.rows, A.rows, fun p =>
    if p < A.rows * A.rows then
      sumRange A.cols (fun k =>
        MATRIX_ELEM A (p / A.rows) k * MATRIX_ELEM (invMat A) k (p % A.rows))
    else 0⟩

theorem mul_invMat (A : c3e_matrix) (hcr : A.cols = A.rows) :
    c3e_matrix_mul A (invMat A) = some (prodMat A) := by
  unfold c3e_matrix_mul
  rw [if_pos (show A.cols = (invMat A).rows from hcr)]
  rfl

theorem prodMat_elem (A : c3e_matrix) (i j : Nat) (hi : i < A.rows) (hj : j < A.rows) :
    MATRIX_ELEM (prodMat A) i j =
      sumRange A.cols (fun k => MATRIX_ELEM A i k * MATRIX_ELEM (invMat A) k j) := by
  show (if i * A.rows + j < A.rows * A.rows then
      sumRange A.cols (fun k =>
        MATRIX_ELEM A ((i * A.rows + j) / A.rows) k *
          MATRIX_ELEM (invMat A) k ((i * A.rows + j) % A.rows))
    else 0) = _
  rw [if_pos (flat_idx_lt hi hj), flat_idx_div hj, flat_idx_mod hj]

/-- C1 (amended): for a square matrix with nonzero computed determinant
whose reduced augmented matrix `[A | I]` carries the identity pattern in its
left half — the case in which Gauss-Jordan inversion is meaningful —
`c3e_matrix_inverse` succeeds and `c3e_matrix_mul` of the input with the
result is all-close to the identity matrix of the same side.  (The
unrestricted claim is refuted separately: a tiny but invertible matrix fails
the pivot tolerance and the product is far from the identity.) -/
theorem claim_C1_amended (n : Nat) (A : c3e_matrix)
    (hr : A.rows = n) (hc : A.cols = n)
    (hdet : detAux A.rows A.data ≠ 0)
    (hleft : ∀ i, i < n → ∀ j, j < n →
      MATRIX_ELEM (invEchelon A) i j = if i = j then 1 else 0) :
    ∃ inv P, c3e_matrix_inverse A = some inv ∧ c3e_matrix_mul A inv = some P ∧
      c3e_matrix_all_close P (c3e_matrix_identity n) = true := by
  have hrc : A.rows = A.cols := by rw [hr, hc]
  refine ⟨invMat A, prodMat A, inverse_eq_invMat A hrc hdet, mul_invMat A hrc.symm, ?_⟩
  have hErows : (invEchelon A).rows = A.rows := by
    rw [invEchelon_eq]
    exact (row_echelon_dims (invAug A)).1
  have hEcols : (invEchelon A).cols = A.cols + A.rows := by
    rw [invEchelon_eq]
    exact (row_echelon_dims (invAug A)).2
  have hspan : rowsSpan (invEchelon A) (invAug A) := by
    rw [invEchelon_eq]
    exact rowsSpan_row_echelon (invAug A)
  obtain ⟨-, -, Pf, hPf⟩ := hspan
  have hCleft : ∀ i j, i < n → j < n →
      sumRange n (fun k => Pf i k * MATRIX_ELEM A k j) = (if i = j then (1 : ℚ) else 0) := by
    intro i j hi hj
    have hiE : i < (invEchelon A).rows := by rw [hErows, hr]; exact hi
    have hjE : j < (invEchelon A).cols := by rw [hEcols]; omega
    have h1 := hPf i hiE j hjE
    rw [hleft i hi j hj] at h1
    rw [hErows, hr] at h1
    have h2 : sumRange n (fun k => Pf i k * MATRIX_ELEM A k j) =
        sumRange n (fun k => Pf i k * MATRIX_ELEM (invAug A) k j) :=
      sumRange_congr n _ _ (fun k hk => by
        rw [invAug_left A hrc.symm k j (by rw [hr]; exact hk) (by rw [hc]; exact hj)])
    rw [h2]
    exact h1.symm
  have hflip := left_inverse_flip n (fun a b => MATRIX_ELEM A a b) Pf hCleft
  have hright : ∀ i j, i < n → j < n →
      MATRIX_ELEM (invEchelon A) i (A.cols + j) = Pf i j := by
    intro i j hi hj
    have hiE : i < (invEchelon A).rows := by rw [hErows, hr]; exact hi
    have hjE : A.cols + j < (invEchelon A).cols := by rw [hEcols]; omega
    have h1 := hPf i hiE (A.cols + j) hjE
    rw [hErows, hr] at h1
    have h2 : sumRange n (fun k => Pf i k * MATRIX_ELEM (invAug A) k (A.cols + j)) =
        sumRange n (fun k => Pf i k * (if k = j then 1 else 0)) :=
      sumRange_congr n _ _ (fun k hk => by
        rw [invAug_right A hrc.symm k j (by rw [hr]; exact hk) (by rw [hr]; exact hj)])
    rw [h1, h2]
    exact sumRange_delta_right n j (fun k => Pf i k) hj
  refine all_close_of_eq (prodMat A) (c3e_matrix_identity n) hr hr ?_
  intro i j hi hj
  have hi' : i < A.rows := hi
  have hj' : j < A.rows := hj
  rw [prodMat_elem A i j hi' hj', MATRIX_ELEM_identity n i j (hr ▸ hi') (hr ▸ hj')]
  have h3 : sumRange A.cols (fun k => MATRIX_ELEM A i k * MATRIX_ELEM (invMat A) k j) =
      sumRange n (fun k => MATRIX_ELEM A i k * Pf k j) := by
    rw [hc]
    apply sumRange_congr
    intro k hk
    rw [invMat_elem A hrc k j (by rw [hr]; exact hk) hj']
    rw [hright k j hk (hr ▸ hj')]
  rw [h3]
  exact hflip i j (hr ▸ hi') (hr ▸ hj')

/-- The matrix `[[2, 1], [1, 1]]` used to witness the amended C1. -/
def invWitA : c3e_matrix :=
  ⟨2, 2, fun k => if k = 0 then 2 else if k = 1 then 1 else if k = 2 then 1
    else if k = 3 then 1 else 0⟩

theorem claim_C1_witness :
    ∃ inv P, c3e_matrix_inverse invWitA = some inv ∧
      c3e_matrix_mul invWitA inv = some P ∧
      c3e_matrix_all_close P (c3e_matrix_identity 2) = true :=
  claim_C1_amended 2 invWitA rfl rfl (by with_unfolding_all decide)
    (by with_unfolding_all decide)
